import Mathlib

/-!
Verification development for the record-location engine of an on-disk B-tree
storage layer (src/btree/row_srch.c and src/btree/bt_curprev.c): skip-list
search, row-store point search, and the three backward record iterators with
their cross-page driver.

Machine integers are modelled as Nat; keys are an arbitrary linearly ordered
type (the pluggable comparator becomes the order's compare function); byte
strings are List Nat.  Pointer-linked skip lists are modelled as an arena of
nodes addressed by stable indices; a NULL pointer is none.  Loops whose
measure is not structural take an explicit fuel argument; wrappers pass a
fuel provably larger than the iteration count, so fuel exhaustion is
unreachable in every theorem below.
-/

set_option maxRecDepth 4096

/-- Update (WT_UPDATE): a value payload plus a deletion flag. -/
structure WT_UPDATE where
  deleted : Bool
  data : List Nat
deriving Repr, DecidableEq

/-- Insert node of a row-store skip list (WT_INSERT with a row key): the key,
its single most-recent update, and the forward pointers, one per level,
realised as indices into an arena of nodes. -/
structure WT_INSERT_KEYED (K : Type) where
  key : K
  upd : WT_UPDATE
  next : List (Option Nat)
deriving Repr, DecidableEq

/-- WT_INSERT_HEAD: the per-level head pointers of one skip list. -/
structure WT_INSERT_HEAD where
  head : List (Option Nat)
deriving Repr, DecidableEq

/-- WT_SKIP_MAXDEPTH: the fixed maximum skip-list depth (value from the
engine's headers; the search theorems do not depend on the value). -/
def WT_SKIP_MAXDEPTH : Nat := 10

/-- Dereference the forward pointer at level lv from a search position
(none = still at the head array, some j = at arena node j), as read by
the `*ins` dereferences of __search_insert. -/
def skipNext {K : Type} (arena : List (WT_INSERT_KEYED K)) (hd : WT_INSERT_HEAD)
    (pos : Option Nat) (lv : Nat) : Option Nat :=
  match pos with
  | none => hd.head.getD lv none
  | some j =>
    match arena.get? j with
    | none => none
    | some node => node.next.getD lv none

/-- Result of advancing along one level of the skip list. -/
inductive AdvanceRes where
  | foundNode (j : Nat)
  | stop (pos : Option Nat)
  | fuelOut
deriving Repr, DecidableEq

/-- The inner advance of __search_insert at one level lv: keep stepping
forward while the next node's key compares less than the search key
(cmp > 0); stop when the next node is absent or compares greater
(cmp < 0, including a NULL pointer treated as cmp = -1); return the node
on an equal comparison.  Fuel bounds the number of forward steps. -/
def __skip_advance {K : Type} [LinearOrder K] (arena : List (WT_INSERT_KEYED K))
    (hd : WT_INSERT_HEAD) (key : K) (lv : Nat) : Nat → Option Nat → AdvanceRes
  | fuel, pos =>
    match skipNext arena hd pos lv with
    | none => .stop pos
    | some j =>
      match arena.get? j with
      | none => .stop pos
      | some node =>
        match compare key node.key with
        | .eq => .foundNode j
        | .lt => .stop pos
        | .gt =>
          match fuel with
          | 0 => .fuelOut
          | fuel + 1 => __skip_advance arena hd key lv fuel (some j)

/-- Result of the full skip-list search. -/
inductive SkipSearchRes where
  | foundNode (j : Nat)
  | notfound
  | fuelOut
deriving Repr, DecidableEq

/-- The level loop of __search_insert, from level lvl - 1 down to 0 (the
argument is the number of levels still to visit).  When the advance at a
level stops, the stopping position is recorded in the insertion stack for
that level (the `cbt->ins_stack[i--] = ins--` line) and the search drops a
level; after level 0 the search reports not-found. -/
def __skip_levels {K : Type} [LinearOrder K] (arena : List (WT_INSERT_KEYED K))
    (hd : WT_INSERT_HEAD) (key : K) (fuel : Nat) :
    Nat → Option Nat → List (Option (Option Nat)) →
    SkipSearchRes × List (Option (Option Nat))
  | 0, _, stack => (.notfound, stack)
  | lv + 1, pos, stack =>
    match __skip_advance arena hd key lv fuel pos with
    | .foundNode j => (.foundNode j, stack)
    | .fuelOut => (.fuelOut, stack)
    | .stop pos2 => __skip_levels arena hd key fuel lv pos2 (stack.set lv (some pos2))

/-- Skip-list search (__search_insert): a NULL insert head returns not-found
immediately with the stack untouched; otherwise the search starts at the
highest level.  The wrapper passes fuel arena.length + 1, which a list
whose forward pointers are acyclic can never exhaust. -/
def __search_insert {K : Type} [LinearOrder K] (arena : List (WT_INSERT_KEYED K))
    (inshead : Option WT_INSERT_HEAD) (key : K)
    (stack : List (Option (Option Nat))) :
    SkipSearchRes × List (Option (Option Nat)) :=
  match inshead with
  | none => (.notfound, stack)
  | some hd => __skip_levels arena hd key (arena.length + 1) WT_SKIP_MAXDEPTH none stack

/-- Row-store leaf page as seen by __wt_row_search: the slot-key array (key
materialization by __wt_row_key is collapsed into the stored key), the
per-slot insert lists, the extra smallest-key list preceding slot 0, and
the page's write generation. -/
structure RowSearchPage (K : Type) where
  keys : List K
  arena : List (WT_INSERT_KEYED K)
  insSmallest : Option WT_INSERT_HEAD
  insSlot : List (Option WT_INSERT_HEAD)
  write_gen : Nat

/-- The cursor fields of WT_CURSOR_BTREE touched by __wt_row_search (cmatch
models the match field; slot indices replace the rip pointer). -/
structure SearchCbt (K : Type) where
  slot : Nat
  rip : Option Nat
  ins_head : Option WT_INSERT_HEAD
  ins : Option Nat
  cmatch : Bool
  write_gen : Nat
  ins_stack : List (Option (Option Nat))
deriving Repr, DecidableEq

/-- Reset the cursor's state (__search_reset); slot is set to UINT32_MAX to
fail big, and the insertion stack is left as it was. -/
def __search_reset {K : Type} (cbt : SearchCbt K) : SearchCbt K :=
  { cbt with slot := 2 ^ 32 - 1, rip := none, ins_head := none, ins := none,
             cmatch := false, write_gen := 0 }

/-- The WT-style binary-search loop over a leaf page's slot keys
(for base = 0, limit = entries; limit != 0; limit >>= 1).  Fuel bounds the
iteration count; limit strictly decreases, so any fuel above the initial
limit is never exhausted.  Returns the exact-match index if the loop broke
on an equal comparison, together with the final base. -/
def leafBsearchAux {K : Type} [LinearOrder K] [Inhabited K] (keys : List K) (key : K) :
    Nat → Nat → Nat → Option Nat × Nat
  | 0, base, _ => (none, base)
  | fuel + 1, base, limit =>
    if limit = 0 then (none, base)
    else
      let indx := base + limit / 2
      match compare key (keys.getD indx default) with
      | .eq => (some indx, base)
      | .lt => leafBsearchAux keys key fuel base (limit / 2)
      | .gt => leafBsearchAux keys key fuel (indx + 1) ((limit - 1) / 2)

/-- Binary search of the leaf page in __wt_row_search, started at base 0 with
limit = entries. -/
def leafBsearch {K : Type} [LinearOrder K] [Inhabited K] (keys : List K) (key : K) :
    Option Nat × Nat :=
  leafBsearchAux keys key (keys.length + 1) 0 keys.length

/-- Leaf portion of __wt_row_search: reset, optional write-generation capture
(before any slot contents are read), leaf binary search, then either the
exact-slot fast path or the single insert-list search selected by base. -/
def __wt_row_search_leaf {K : Type} [LinearOrder K] [Inhabited K]
    (page : RowSearchPage K) (key : K) (is_modify : Bool) (cbt0 : SearchCbt K) :
    SearchCbt K :=
  let cbt1 := __search_reset cbt0
  let cbt2 := if is_modify then { cbt1 with write_gen := page.write_gen } else cbt1
  match leafBsearch page.keys key with
  | (some indx, _) => { cbt2 with rip := some indx, slot := indx, cmatch := true }
  | (none, base) =>
    let ripIdx := if base = 0 then 0 else base - 1
    let cbt3 : SearchCbt K := { cbt2 with rip := some ripIdx }
    let cbt4 : SearchCbt K :=
      if base = 0 then
        { cbt3 with ins_head := page.insSmallest, slot := page.keys.length }
      else
        { cbt3 with ins_head := page.insSlot.getD (base - 1) none, slot := base - 1 }
    let sr := __search_insert page.arena cbt4.ins_head key cbt4.ins_stack
    { cbt4 with ins_stack := sr.2,
                ins := match sr.1 with | .foundNode j => some j | _ => none,
                cmatch := match sr.1 with | .foundNode _ => true | _ => false }

/-- Result of choosing the child slot on one internal page: either the index
of the routing entry to descend through, or the fatal assertion
WT_ASSERT(session, rref != NULL) firing on a page with no routing entries. -/
inductive RowIntRes where
  | chosen (idx : Nat)
  | corrupt
deriving Repr, DecidableEq

/-- The internal-page binary-search loop of __wt_row_search: identical to the
leaf loop except that the 0th index is never compared (it is treated as
sorting below any application key), and the last probed entry is tracked in
rref.  Returns (exact index if the loop broke on equal, final base, rref). -/
def intBsearchAux {K : Type} [LinearOrder K] [Inhabited K] (keys : List K) (key : K) :
    Nat → Nat → Nat → Option Nat → Option Nat × Nat × Option Nat
  | 0, base, _, rref => (none, base, rref)
  | fuel + 1, base, limit, rref =>
    if limit = 0 then (none, base, rref)
    else
      let indx := base + limit / 2
      if indx ≠ 0 then
        match compare key (keys.getD indx default) with
        | .eq => (some indx, base, some indx)
        | .lt => intBsearchAux keys key fuel base (limit / 2) (some indx)
        | .gt => intBsearchAux keys key fuel (indx + 1) ((limit - 1) / 2) (some indx)
      else intBsearchAux keys key fuel (indx + 1) ((limit - 1) / 2) (some indx)

/-- Child choice on one internal page during the descent of __wt_row_search:
binary search the routing keys, assert that some entry was probed, and
descend through the exact match if the loop broke on one, otherwise through
the slot before base. -/
def __wt_row_search_descend {K : Type} [LinearOrder K] [Inhabited K]
    (keys : List K) (key : K) : RowIntRes :=
  match intBsearchAux keys key (keys.length + 1) 0 keys.length none with
  | (_, _, none) => .corrupt
  | (some indx, _, some _) => .chosen indx
  | (none, base, some _) => .chosen (base - 1)

/-- Row-store leaf slot as seen by __prev_row: the key (materialization by
__wt_row_key collapsed into the stored key), the update attached to the slot
(WT_ROW_UPDATE, none if never modified), and the on-disk value cell (none if
the slot has no value cell). -/
structure WT_ROW (K : Type) where
  key : K
  upd : Option WT_UPDATE
  cell : Option (List Nat)
deriving Repr, DecidableEq

/-- Insert node as walked by __prev_row: the backward iterator only ever
walks level 0 (WT_SKIP_FOREACH and the count-then-walk loop), so each insert
list appears as its level-0 chain in ascending key order. -/
structure RowIns (K : Type) where
  key : K
  upd : WT_UPDATE
deriving Repr, DecidableEq

/-- Row-store leaf page as seen by __prev_row.  An absent (NULL)
WT_INSERT_HEAD and an empty chain behave identically here, so both are the
empty list. -/
structure RowLeafPage (K : Type) where
  rows : List (WT_ROW K)
  insSmallest : List (RowIns K)
  insSlot : List (List (RowIns K))
deriving Repr, DecidableEq

/-- Out-of-range array reads are unreachable in the states the theorems
exercise; the default element is deletion-marked so a hypothetical
out-of-range ordinal contributes no record on either side of a proof. -/
instance {K : Type} [Inhabited K] : Inhabited (RowIns K) :=
  ⟨⟨default, ⟨true, []⟩⟩⟩

instance {K : Type} [Inhabited K] : Inhabited (WT_ROW K) :=
  ⟨⟨default, some ⟨true, []⟩, none⟩⟩

instance {K : Type} : Inhabited (RowLeafPage K) := ⟨⟨[], [], []⟩⟩

/-- Cursor fields of WT_CURSOR_BTREE used by __prev_row: current slot, the
insert list being walked (ins_head), the remaining ordinal count
(ins_entry_cnt), and the sticky flags WT_CBT_RET_SLOT / WT_CBT_RET_INSERT. -/
structure RowCbt (K : Type) where
  slot : Nat
  ins_head : List (RowIns K)
  ins_entry_cnt : Nat
  ret_slot : Bool
  ret_insert : Bool
deriving Repr, DecidableEq

/-- WT_ROW_INSERT_SMALLEST / WT_ROW_INSERT_SLOT(slot - 1): the insert list
preceding a slot. -/
def preList {K : Type} (page : RowLeafPage K) (s : Nat) : List (RowIns K) :=
  if s = 0 then page.insSmallest else page.insSlot.getD (s - 1) []

/-- Ordinal of the next insert-list node owed by the cursor: ins_entry_cnt
itself while WT_CBT_RET_INSERT is still set, one less once it was cleared
(the --cbt->ins_entry_cnt of the walk). -/
def pendingCount {K : Type} (cbt : RowCbt K) : Nat :=
  if cbt.ret_insert then cbt.ins_entry_cnt else cbt.ins_entry_cnt - 1

/-- The insert-list arm of __prev_row's loop: serve ordinals pending,
pending - 1, ... (the count-then-walk-forward loop materialises ordinal c as
chain position c - 1), skipping deletion-marked nodes via the loop's
continue; returns the served ordinal (the new ins_entry_cnt) and its node,
or none when the countdown hits zero. -/
def insPhase {K : Type} [Inhabited K] (h : List (RowIns K)) : Nat → Option (Nat × RowIns K)
  | 0 => none
  | c + 1 =>
    let n := h.getD c default
    if n.upd.deleted then insPhase h c else some (c + 1, n)

/-- Arrival at slot s with the slot's own record still owed: the slot arm of
__prev_row's loop.  Sets up the insert list preceding the slot, skips a
deletion-shadowed slot by falling through to that list and then the previous
slot, and otherwise returns the slot's key/value pair (update data if ever
modified, else the cell value, else the empty value). -/
def slotTry {K : Type} [Inhabited K] (page : RowLeafPage K) (s : Nat) :
    Option (RowCbt K × (K × List Nat)) :=
  let rip := page.rows.getD s default
  let h := preList page s
  match rip.upd with
  | some u =>
    if u.deleted then
      match insPhase h h.length with
      | some (c, n) =>
        some ({ slot := s, ins_head := h, ins_entry_cnt := c,
                ret_slot := false, ret_insert := false }, (n.key, n.upd.data))
      | none => none
    else
      some ({ slot := s, ins_head := h, ins_entry_cnt := h.length,
              ret_slot := false, ret_insert := true }, (rip.key, u.data))
  | none =>
    some ({ slot := s, ins_head := h, ins_entry_cnt := h.length,
            ret_slot := false, ret_insert := true },
          (rip.key, match rip.cell with | some v => v | none => []))

/-- The slot arm's walk down the page: try each slot from s; a slot that
resolves to nothing (deletion-shadowed with a dead preceding list) falls
through to the previous slot; below slot 0 the page is exhausted. -/
def slotStep {K : Type} [Inhabited K] (page : RowLeafPage K) :
    Nat → Option (RowCbt K × (K × List Nat))
  | 0 => slotTry page 0
  | s + 1 =>
    match slotTry page (s + 1) with
    | some r => some r
    | none => slotStep page s

/-- One call of __prev_row with newpage = 0: continue the insert list first
(highest pending ordinal down, skipping deleted entries), then the slot arm:
return the current slot if still owed, else move to the preceding slot, else
report end-of-page (none = WT_NOTFOUND). -/
def prevRowStep {K : Type} [Inhabited K] (page : RowLeafPage K) (cbt : RowCbt K) :
    Option (RowCbt K × (K × List Nat)) :=
  let afterIns : Option (RowCbt K × (K × List Nat)) :=
    if cbt.ret_slot then slotStep page cbt.slot
    else
      match cbt.slot with
      | 0 => none
      | s + 1 => slotStep page s
  if cbt.ins_head.isEmpty ∨ cbt.ins_entry_cnt = 0 then afterIns
  else
    match insPhase cbt.ins_head (pendingCount cbt) with
    | some (c, n) =>
      some ({ cbt with ins_entry_cnt := c, ret_insert := false }, (n.key, n.upd.data))
    | none => afterIns

/-- New-page configuration of __prev_row (newpage = 1): position at the last
slot with the insert list after it, both return obligations pending. -/
def prevRowInit {K : Type} (page : RowLeafPage K) : RowCbt K :=
  { slot := page.rows.length - 1,
    ins_head := page.insSlot.getD (page.rows.length - 1) [],
    ins_entry_cnt := (page.insSlot.getD (page.rows.length - 1) []).length,
    ret_slot := true, ret_insert := true }

/-- Bound on the number of records still to come from the slots at or below
slot s: each slot costs its own record plus its preceding insert list. -/
def slotCost {K : Type} (page : RowLeafPage K) : Nat → Nat
  | 0 => 2 + 2 * (preList page 0).length
  | s + 1 => 2 + 2 * (preList page (s + 1)).length + slotCost page s

/-- Bound on the number of records still to come from a __prev_row cursor
state; it strictly decreases across every successful step. -/
def rowFuel {K : Type} (page : RowLeafPage K) (cbt : RowCbt K) : Nat :=
  2 * cbt.ins_entry_cnt + (if cbt.ret_insert then 1 else 0) +
    (if cbt.ret_slot then slotCost page cbt.slot
     else match cbt.slot with | 0 => 0 | s + 1 => slotCost page s)

/-- Trace of repeated __prev_row calls on one page until WT_NOTFOUND,
fuel-bounded (prevRowRun passes fuel that cannot run out). -/
def prevRowRunAux {K : Type} [Inhabited K] (page : RowLeafPage K) :
    Nat → RowCbt K → List (K × List Nat)
  | 0, _ => []
  | fuel + 1, cbt =>
    match prevRowStep page cbt with
    | none => []
    | some (cbt2, kv) => kv :: prevRowRunAux page fuel cbt2

/-- Trace of repeated __prev_row calls from a cursor state to exhaustion. -/
def prevRowRun {K : Type} [Inhabited K] (page : RowLeafPage K) (cbt : RowCbt K) :
    List (K × List Nat) :=
  prevRowRunAux page (rowFuel page cbt + 1) cbt

/-- Record emitted by a slot, ascending view: nothing if deletion-shadowed,
otherwise the key with update data, cell value or empty value. -/
def slotEmit {K : Type} [Inhabited K] (page : RowLeafPage K) (s : Nat) :
    List (K × List Nat) :=
  let rip := page.rows.getD s default
  match rip.upd with
  | some u => if u.deleted then [] else [(rip.key, u.data)]
  | none => [(rip.key, match rip.cell with | some v => v | none => [])]

/-- Live entries of an insert list in ascending order, as key/value records. -/
def ascLive {K : Type} (l : List (RowIns K)) : List (K × List Nat) :=
  (l.filter (fun n => !n.upd.deleted)).map (fun n => (n.key, n.upd.data))

/-- Descending emission of an insert list: last to first, deleted skipped. -/
def descLive {K : Type} (l : List (RowIns K)) : List (K × List Nat) :=
  (ascLive l).reverse

/-- Merged visible record sequence of slots 0..s of a row page, ascending:
the on-disk slots united with live insert-list entries, minus records whose
most-recent update is a deletion marker (the claim's record set). -/
def mergedAscUpTo {K : Type} [Inhabited K] (page : RowLeafPage K) :
    Nat → List (K × List Nat)
  | 0 => ascLive page.insSmallest ++ slotEmit page 0 ++ ascLive (page.insSlot.getD 0 [])
  | s + 1 =>
    mergedAscUpTo page s ++ slotEmit page (s + 1) ++ ascLive (page.insSlot.getD (s + 1) [])

/-- Merged visible record sequence of a whole row page, ascending. -/
def mergedAsc {K : Type} [Inhabited K] (page : RowLeafPage K) : List (K × List Nat) :=
  mergedAscUpTo page (page.rows.length - 1)

/-- Records a backward walk still produces from slot s downward, slot-first
then its preceding insert list, per slot. -/
def slotDown {K : Type} [Inhabited K] (page : RowLeafPage K) : Nat → List (K × List Nat)
  | 0 => slotEmit page 0 ++ descLive (preList page 0)
  | s + 1 => slotEmit page (s + 1) ++ descLive (preList page (s + 1)) ++ slotDown page s

/-- Records still to be produced from a __prev_row cursor state: the pending
part of the current insert list, then the slots at or below the cursor. -/
def remainingRow {K : Type} [Inhabited K] (page : RowLeafPage K) (cbt : RowCbt K) :
    List (K × List Nat) :=
  descLive (cbt.ins_head.take (pendingCount cbt)) ++
    (if cbt.ret_slot then slotDown page cbt.slot
     else match cbt.slot with | 0 => [] | s + 1 => slotDown page s)

/-- Result of one __wt_btcur_prev call on a row-store tree: a record plus the
cursor position after the call, or the WT_NOTFOUND sentinel. -/
inductive WalkRes (K : Type) where
  | found (pageIdx : Nat) (cbt : RowCbt K) (kv : K × List Nat)
  | notfound
deriving Repr, DecidableEq

/-- The np loop of __wt_btcur_prev.  Modelled from the spec: __wt_xxx_np is
not part of the sources in scope; per section 6 advance_to_previous_leaf
skips internal pages, so the tree is the ascending list of its leaf pages
and stepping back decrements the leaf index.  Each new page is configured
with newpage = 1 and its iterator run; empty pages are passed over; the
start of the tree yields WT_NOTFOUND. -/
def walkPagesBack {K : Type} [Inhabited K] (pages : List (RowLeafPage K)) :
    Nat → WalkRes K
  | 0 =>
    match prevRowStep (pages.getD 0 default) (prevRowInit (pages.getD 0 default)) with
    | some (cbt2, kv) => .found 0 cbt2 kv
    | none => .notfound
  | i + 1 =>
    match prevRowStep (pages.getD (i + 1) default) (prevRowInit (pages.getD (i + 1) default)) with
    | some (cbt2, kv) => .found (i + 1) cbt2 kv
    | none => walkPagesBack pages i

/-- One call of __wt_btcur_prev on a row-store tree.  The cursor position is
none for a cleared cursor (cbt->page == NULL) and some (i, cbt) for a cursor
on leaf i.  Run the held page's iterator; on WT_NOTFOUND (or with no page
held) move to the previous leaf and retry until a record is produced or the
start of the tree is reached. -/
def __wt_btcur_prev {K : Type} [Inhabited K] (pages : List (RowLeafPage K)) :
    Option (Nat × RowCbt K) → WalkRes K
  | none =>
    match pages.length with
    | 0 => .notfound
    | n + 1 => walkPagesBack pages n
  | some (i, cbt) =>
    match prevRowStep (pages.getD i default) cbt with
    | some (cbt2, kv) => .found i cbt2 kv
    | none =>
      match i with
      | 0 => .notfound
      | i2 + 1 => walkPagesBack pages i2

/-- Modelled from the spec: __wt_cursor_clear is not among the sources in
scope; per sections 3 and 6 resetting discards the cursor's traversal state,
so a cleared cursor holds no page. -/
def __wt_cursor_clear {K : Type} (cur : Option (Nat × RowCbt K)) :
    Option (Nat × RowCbt K) :=
  match cur with
  | _ => none

/-- __wt_btcur_last: clear the cursor, then move to the previous record. -/
def __wt_btcur_last {K : Type} [Inhabited K] (pages : List (RowLeafPage K))
    (cur : Option (Nat × RowCbt K)) : WalkRes K :=
  __wt_btcur_prev pages (__wt_cursor_clear cur)

/-- The spec's produced interface for last(): reset cursor, then prev()
(section 6), stated as its own definition for the refinement claim. -/
def lastSpec {K : Type} [Inhabited K] (pages : List (RowLeafPage K))
    (cur : Option (Nat × RowCbt K)) : WalkRes K :=
  __wt_btcur_prev pages (__wt_cursor_clear cur)

/-- Fuel to drain leaves 0..i of a tree from their new-page configurations. -/
def treeFuel {K : Type} [Inhabited K] (pages : List (RowLeafPage K)) : Nat → Nat
  | 0 => rowFuel (pages.getD 0 default) (prevRowInit (pages.getD 0 default)) + 1
  | i + 1 =>
    rowFuel (pages.getD (i + 1) default) (prevRowInit (pages.getD (i + 1) default)) + 1 +
      treeFuel pages i

/-- Trace of repeated __wt_btcur_prev calls, fuel-bounded. -/
def btcurRunAux {K : Type} [Inhabited K] (pages : List (RowLeafPage K)) :
    Nat → Option (Nat × RowCbt K) → List (K × List Nat)
  | 0, _ => []
  | fuel + 1, cur =>
    match __wt_btcur_prev pages cur with
    | .notfound => []
    | .found i cbt kv => kv :: btcurRunAux pages fuel (some (i, cbt))

/-- Trace of repeated __wt_btcur_prev calls from a cleared cursor until the
walk reports WT_NOTFOUND: the full backward iteration of the tree. -/
def btcurPrevRunAll {K : Type} [Inhabited K] (pages : List (RowLeafPage K)) :
    List (K × List Nat) :=
  btcurRunAux pages (treeFuel pages (pages.length - 1) + 1) none

/-- Column-store insert node (WT_INSERT in a column tree): the record number
and the node's single update. -/
structure ColIns where
  recno : Nat
  upd : WT_UPDATE
deriving Repr, DecidableEq

/-- Fixed-length column-store leaf page as seen by __prev_fix: base record
number, entry count, the bit-packed values (__bit_getv_recno collapsed into
a byte per record, indexed from the base), and the page's single insert list
(WT_COL_INSERT_SINGLE) as its level-0 chain. -/
structure FixPage where
  recno : Nat
  entries : Nat
  bits : List Nat
  ins_head : List ColIns
deriving Repr, DecidableEq

/-- Cursor fields used by __prev_fix: the insert list, the remaining slot
count, the current record number, and the cursor's ins field, which
__prev_fix reads (the upd = cbt->ins->upd line) but never assigns — it holds
NULL after a cursor reset, or whatever node a past search left there. -/
structure FixCbt where
  ins_head : List ColIns
  nslots : Nat
  recno : Nat
  ins : Option ColIns
deriving Repr, DecidableEq

/-- Result of one backward column-iterator call: a record plus the advanced
cursor, the WT_NOTFOUND sentinel, or the crash from dereferencing a NULL
cbt->ins. -/
inductive ColRes (C : Type) where
  | ok (cbt : C) (recno : Nat) (value : List Nat)
  | notfound
  | nullDeref
deriving Repr, DecidableEq

/-- The three-way state local of __prev_fix and __prev_var. -/
inductive TriState where
  | del
  | fnd (v : List Nat)
  | nf
deriving Repr, DecidableEq

/-- The WT_SKIP_FOREACH scan of __prev_fix over the insert list: every node
whose record number matches the current one updates the three-way state, but
the update consulted is cbt->ins->upd — the cursor's stale ins field, not
the matching node ins; .error signals the NULL dereference when cbt->ins is
NULL. -/
def fixScan (cbtIns : Option ColIns) (recno : Nat) :
    List ColIns → TriState → Except Unit TriState
  | [], st => .ok st
  | n :: rest, st =>
    if recno = n.recno then
      match cbtIns with
      | none => .error ()
      | some sn =>
        if sn.upd.deleted then fixScan cbtIns recno rest .del
        else fixScan cbtIns recno rest (.fnd sn.upd.data)
    else fixScan cbtIns recno rest st

/-- The record loop of __prev_fix, structural on the remaining slot count.
Each iteration publishes the current record number and scans the insert
list; a live insert value (one byte) or the bit-packed on-disk value is
returned, a deletion-marked record is skipped, and exhausted slots give
WT_NOTFOUND.  The loop decrements recno and nslots after each body, so a
returned cursor is already poised on the next record. -/
def prevFixLoop (page : FixPage) (insHead : List ColIns) (cbtIns : Option ColIns) :
    Nat → Nat → ColRes FixCbt
  | 0, _ => .notfound
  | ns + 1, recno =>
    match fixScan cbtIns recno insHead .nf with
    | .error _ => .nullDeref
    | .ok .del => prevFixLoop page insHead cbtIns ns (recno - 1)
    | .ok (.fnd v) => .ok ⟨insHead, ns, recno - 1, cbtIns⟩ recno (v.take 1)
    | .ok .nf =>
      .ok ⟨insHead, ns, recno - 1, cbtIns⟩ recno [page.bits.getD (recno - page.recno) 0]

/-- __prev_fix: on a new page take the page's insert list, all slots, and the
highest record number, then run the record loop. -/
def __prev_fix (page : FixPage) (newpage : Bool) (cbt : FixCbt) : ColRes FixCbt :=
  let cbt1 : FixCbt :=
    if newpage then
      { cbt with ins_head := page.ins_head, nslots := page.entries,
                 recno := page.recno + (page.entries - 1) }
    else cbt
  prevFixLoop page cbt1.ins_head cbt1.ins cbt1.nslots cbt1.recno

/-- Unpacked type of a variable-length column-store cell: a deletion run or a
value. -/
inductive VarCellTy where
  | del
  | val (data : List Nat)
deriving Repr, DecidableEq

/-- Variable-length column-store cell: unpacked type/value and RLE count. -/
structure VarCell where
  ty : VarCellTy
  rle : Nat
deriving Repr, DecidableEq

/-- Variable-length column-store leaf page as seen by __prev_var: base record
number, the cell array (none models a slot whose WT_COL_PTR is NULL), and
the per-slot insert lists (WT_COL_INSERT) as level-0 chains. -/
structure VarPage where
  recno : Nat
  cols : List (Option VarCell)
  insCol : List (List ColIns)
deriving Repr, DecidableEq

/-- Cursor fields used by __prev_var: cell index (cip as an index into the
cell array), remaining cell count, current record number, RLE-run remainder,
the current cell's insert list and decoded value, and the stale cbt->ins
field that the record check reads. -/
structure VarCbt where
  cip : Nat
  nslots : Nat
  recno : Nat
  rle_return_cnt : Nat
  ins_head : List ColIns
  value : List Nat
  ins : Option ColIns
deriving Repr, DecidableEq

/-- Result of the RLE replay loop: a record (with the decremented record
number and run remainder), an exhausted run, or the NULL-dereference crash. -/
inductive VarRunRes where
  | out (recno2 rle2 : Nat) (recno : Nat) (value : List Nat)
  | exhausted (recno2 : Nat)
  | nullDeref
deriving Repr, DecidableEq

/-- __wt_cell_unpack_copy collapsed: the decoded value of a cell type. -/
def cellCopy : VarCellTy → List Nat
  | .del => []
  | .val d => d

/-- The RLE replay loop of __prev_var: publish the current record number and
decrement it, then run the record check.  The WT_SKIP_FOREACH there compares
the already-decremented record number against WT_INSERT_RECNO(cbt->ins) —
the stale cursor field, dereferenced (crashing on NULL) whenever the list is
non-empty, the loop variable ins going unused; a stale match supplies
cbt->ins's update (one record of the run is skipped if it is a deletion),
any other record gets the cell's decoded value. -/
def varRun (insHead : List ColIns) (cbtIns : Option ColIns) (value : List Nat) :
    Nat → Nat → VarRunRes
  | 0, recno => .exhausted recno
  | r + 1, recno =>
    if insHead.isEmpty then .out (recno - 1) r recno value
    else
      match cbtIns with
      | none => .nullDeref
      | some sn =>
        if recno - 1 = sn.recno then
          if sn.upd.deleted then varRun insHead cbtIns value r (recno - 1)
          else .out (recno - 1) r recno sn.upd.data
        else .out (recno - 1) r recno value

/-- The cell loop of __prev_var, structural on the remaining cell count.
lastTy carries the _unpack local across the iterations of one call: a slot
with no cell does not refresh it (the deletion-run test then reads the
previously unpacked type; none on the first cell of a call, treated as not a
deletion).  A deletion cell whose slot has no insert list skips its whole
run of record numbers in one step and moves to the previous cell. -/
def varCells (page : VarPage) (cbtIns : Option ColIns) :
    Nat → Nat → Nat → Option VarCellTy → ColRes VarCbt
  | 0, _, _, _ => .notfound
  | ns + 1, cip, recno, lastTy =>
    match page.cols.getD cip none with
    | some cell =>
      let insHead := page.insCol.getD cip []
      if insHead.isEmpty ∧ cell.ty = .del then
        varCells page cbtIns ns (cip - 1) (recno - cell.rle) (some cell.ty)
      else
        let v := cellCopy cell.ty
        match varRun insHead cbtIns v cell.rle recno with
        | .out recno2 rle2 outr outv =>
          .ok ⟨cip, ns + 1, recno2, rle2, insHead, v, cbtIns⟩ outr outv
        | .exhausted recno2 => varCells page cbtIns ns (cip - 1) recno2 (some cell.ty)
        | .nullDeref => .nullDeref
    | none =>
      let insHead := page.insCol.getD cip []
      if insHead.isEmpty ∧ lastTy = some .del then
        varCells page cbtIns ns (cip - 1) (recno - 1) lastTy
      else
        match varRun insHead cbtIns [] 1 recno with
        | .out recno2 rle2 outr outv =>
          .ok ⟨cip, ns + 1, recno2, rle2, insHead, [], cbtIns⟩ outr outv
        | .exhausted recno2 => varCells page cbtIns ns (cip - 1) recno2 lastTy
        | .nullDeref => .nullDeref

/-- __prev_var: on a new page position at the last cell with a fresh unpack
local; on a resumed call first finish the current cell's RLE run, then
continue the cell loop with the following cell. -/
def __prev_var (page : VarPage) (newpage : Bool) (cbt : VarCbt) : ColRes VarCbt :=
  if newpage then
    varCells page cbt.ins page.cols.length (page.cols.length - 1)
      (page.recno + (page.cols.length - 1)) none
  else
    match varRun cbt.ins_head cbt.ins cbt.value cbt.rle_return_cnt cbt.recno with
    | .out recno2 rle2 outr outv =>
      .ok { cbt with recno := recno2, rle_return_cnt := rle2 } outr outv
    | .exhausted recno2 => varCells page cbt.ins (cbt.nslots - 1) (cbt.cip - 1) recno2 none
    | .nullDeref => .nullDeref

/-- Records a cross-page backward walk still produces when it is about to try
leaf i and everything below: the merged visible sets of leaves i, i-1, ...,
0, each in descending order. -/
def treeDown {K : Type} [Inhabited K] (pages : List (RowLeafPage K)) :
    Nat → List (K × List Nat)
  | 0 => (mergedAsc (pages.getD 0 default)).reverse
  | i + 1 => (mergedAsc (pages.getD (i + 1) default)).reverse ++ treeDown pages i

/-- Merged visible record set of a fixed-length column page in descending
record-number order, from the claim's words: each record number carries its
live insert-list update if one exists (one byte), is omitted entirely if
that update is a deletion marker, and otherwise carries the on-disk
bit-packed value. -/
def mergedFixDesc (page : FixPage) : List (Nat × List Nat) :=
  (List.range page.entries).reverse.filterMap (fun i =>
    match page.ins_head.find? (fun n => n.recno == page.recno + i) with
    | some n => if n.upd.deleted then none else some (page.recno + i, n.upd.data.take 1)
    | none => some (page.recno + i, [page.bits.getD i 0]))

/-- Trace of repeated __prev_fix calls on one page until WT_NOTFOUND,
fuel-bounded; none records that a call crashed on the NULL cbt->ins
dereference, so the walk produced no well-defined record sequence. -/
def prevFixTraceAux (page : FixPage) :
    Nat → Bool → FixCbt → Option (List (Nat × List Nat))
  | 0, _, _ => some []
  | fuel + 1, newpage, cbt =>
    match __prev_fix page newpage cbt with
    | .notfound => some []
    | .nullDeref => none
    | .ok cbt2 r v =>
      match prevFixTraceAux page fuel false cbt2 with
      | none => none
      | some rest => some ((r, v) :: rest)

/-- Trace of the backward walk of one fixed-length column page from the end
(newpage configuration), as driven by __wt_btcur_prev's WT_PAGE_COL_FIX
dispatch; the slot count bounds the number of calls. -/
def prevFixTraceAll (page : FixPage) (cbt : FixCbt) :
    Option (List (Nat × List Nat)) :=
  prevFixTraceAux page (page.entries + 1) true cbt

/-- Scan for the smallest index at or after j whose key compares greater
than the search key, never considering index 0 (helper for the spec-side
routing rule of claim C5). -/
def sgAux {K : Type} [LinearOrder K] (key : K) : List K → Nat → Option Nat
  | [], _ => none
  | k :: rest, j => if j ≠ 0 ∧ key < k then some j else sgAux key rest (j + 1)

/-- The claim's routing rule, stated from the spec's words: the child chosen
is the routing entry immediately preceding the smallest entry that compares
greater than the search key (or the last entry if none compares greater),
with the 0th routing entry treated as sorting below every application key. -/
def specChild {K : Type} [LinearOrder K] (keys : List K) (key : K) : Nat :=
  match sgAux key keys 0 with
  | some j => j - 1
  | none => keys.length - 1

theorem all_none_getD {l : List (Option Nat)} (h : l.all (fun p => p = none) = true)
    (i : Nat) : l.getD i none = none := by
  induction l generalizing i with
  | nil => rfl
  | cons x xs ih =>
    simp only [List.all_cons, Bool.and_eq_true, decide_eq_true_eq] at h
    cases i with
    | zero => simpa using h.1
    | succ j => simpa using ih (by simpa using h.2) j

theorem skip_advance_found {K : Type} [LinearOrder K] (arena : List (WT_INSERT_KEYED K))
    (hd : WT_INSERT_HEAD) (key : K) (lv : Nat) :
    ∀ fuel pos j, __skip_advance arena hd key lv fuel pos = .foundNode j →
      ∃ node, arena.get? j = some node ∧ compare key node.key = .eq := by
  intro fuel
  induction fuel with
  | zero =>
    intro pos j h
    rw [__skip_advance] at h
    split at h
    · simp at h
    · split at h
      · simp at h
      · split at h
        · rename_i pos2 j2 hnext x1 node hget x2 hcmp
          cases h
          exact ⟨node, hget, hcmp⟩
        · simp at h
        · simp at h
  | succ f ih =>
    intro pos j h
    rw [__skip_advance] at h
    split at h
    · simp at h
    · split at h
      · simp at h
      · split at h
        · rename_i pos2 j2 hnext x1 node hget x2 hcmp
          cases h
          exact ⟨node, hget, hcmp⟩
        · simp at h
        · rename_i pos2 j2 hnext x1 node hget x2 hcmp
          exact ih (some j2) j h

theorem skip_levels_found {K : Type} [LinearOrder K] (arena : List (WT_INSERT_KEYED K))
    (hd : WT_INSERT_HEAD) (key : K) (fuel : Nat) :
    ∀ n pos stack j stack2,
      __skip_levels arena hd key fuel n pos stack = (.foundNode j, stack2) →
      ∃ node, arena.get? j = some node ∧ compare key node.key = .eq := by
  intro n
  induction n with
  | zero =>
    intro pos stack j stack2 h
    rw [__skip_levels] at h
    simp at h
  | succ lv ih =>
    intro pos stack j stack2 h
    rw [__skip_levels] at h
    split at h
    · rename_i hadv
      rw [Prod.mk.injEq] at h
      obtain ⟨h1, h2⟩ := h
      cases h1
      exact skip_advance_found arena hd key lv fuel pos j hadv
    · simp at h
    · exact ih _ _ j stack2 h

theorem skip_levels_all_none {K : Type} [LinearOrder K] (arena : List (WT_INSERT_KEYED K))
    (hd : WT_INSERT_HEAD) (key : K) (fuel : Nat)
    (hall : hd.head.all (fun p => p = none) = true) :
    ∀ n stack, (__skip_levels arena hd key fuel n none stack).1 = .notfound := by
  intro n
  induction n with
  | zero => intro stack; rw [__skip_levels]
  | succ lv ih =>
    intro stack
    have hgd : hd.head.getD lv none = none := all_none_getD hall lv
    have hadv : __skip_advance arena hd key lv fuel none = .stop none := by
      rw [__skip_advance]
      have hsn : skipNext arena hd none lv = none := by
        simp only [skipNext]
        exact hgd
      rw [hsn]
    rw [__skip_levels, hadv]
    exact ih _

/-- C3: the skip-list search of __search_insert returns a node only when that
node's key compares equal to the search key; an empty (NULL) list yields
not-found immediately with no stack recorded, and a list whose head pointers
are all NULL likewise reports not-found after dropping through every level. -/
theorem C3_skip_list_search {K : Type} [LinearOrder K]
    (arena : List (WT_INSERT_KEYED K)) (key : K)
    (stack : List (Option (Option Nat))) :
    (__search_insert arena none key stack = (.notfound, stack)) ∧
    (∀ hd, hd.head.all (fun p => p = none) = true →
      (__search_insert arena (some hd) key stack).1 = .notfound) ∧
    (∀ inshead j stack2,
      __search_insert arena inshead key stack = (.foundNode j, stack2) →
      ∃ node, arena.get? j = some node ∧ compare key node.key = .eq) := by
  refine ⟨rfl, ?_, ?_⟩
  · intro hd hall
    exact skip_levels_all_none arena hd key (arena.length + 1) hall WT_SKIP_MAXDEPTH stack
  · intro inshead j stack2 h
    cases inshead with
    | none => simp [__search_insert] at h
    | some hd => exact skip_levels_found arena hd key _ _ _ _ j stack2 h

/-- Witness for C3: a concrete empty list, a concrete all-NULL head, and a
concrete one-node list searched for its own key. -/
theorem C3_skip_list_search_witness :
    (__search_insert ([] : List (WT_INSERT_KEYED Nat)) none 5 [] = (.notfound, [])) ∧
    ((__search_insert ([] : List (WT_INSERT_KEYED Nat)) (some ⟨[none, none]⟩) 5 []).1 =
      .notfound) ∧
    (∃ node, ([⟨5, ⟨false, [1]⟩, [none]⟩] : List (WT_INSERT_KEYED Nat)).get? 0 =
      some node ∧ compare (5 : Nat) node.key = .eq) :=
  ⟨(C3_skip_list_search [] 5 []).1,
   (C3_skip_list_search [] 5 []).2.1 ⟨[none, none]⟩ (by decide),
   (C3_skip_list_search [⟨5, ⟨false, [1]⟩, [none]⟩] 5 []).2.2 (some ⟨[some 0]⟩) 0 []
     (by decide)⟩

theorem intBsearch_rref_keeps {K : Type} [LinearOrder K] [Inhabited K]
    (keys : List K) (key : K) :
    ∀ fuel base limit r,
      ((intBsearchAux keys key fuel base limit (some r)).2.2).isSome = true := by
  intro fuel
  induction fuel with
  | zero => intro base limit r; rw [intBsearchAux]; rfl
  | succ f ih =>
    intro base limit r
    rw [intBsearchAux]
    split
    · rfl
    · dsimp only
      split
      · split
        · rfl
        · exact ih _ _ _
        · exact ih _ _ _
      · exact ih _ _ _

theorem intBsearch_rref_start {K : Type} [LinearOrder K] [Inhabited K]
    (keys : List K) (key : K) (fuel base limit : Nat) (r0 : Option Nat)
    (hlim : 1 ≤ limit) (hfuel : 1 ≤ fuel) :
    ((intBsearchAux keys key fuel base limit r0).2.2).isSome = true := by
  obtain ⟨f, rfl⟩ : ∃ f, fuel = f + 1 := ⟨fuel - 1, by omega⟩
  rw [intBsearchAux]
  split
  · omega
  · dsimp only
    split
    · split
      · rfl
      · exact intBsearch_rref_keeps keys key _ _ _ _
      · exact intBsearch_rref_keeps keys key _ _ _ _
    · exact intBsearch_rref_keeps keys key _ _ _ _

/-- C6: an internal page with zero routing entries trips the fatal assertion
of the descent (the probed-entry reference stays NULL); with at least one
routing entry the assertion branch is unreachable and a child slot is always
chosen. -/
theorem C6_descend_assertion {K : Type} [LinearOrder K] [Inhabited K]
    (keys : List K) (key : K) :
    (keys = [] → __wt_row_search_descend keys key = .corrupt) ∧
    (keys ≠ [] → ∃ idx, __wt_row_search_descend keys key = .chosen idx) := by
  constructor
  · intro h
    subst h
    rfl
  · intro h
    have hlen : 1 ≤ keys.length := List.length_pos.mpr h
    rcases hres : intBsearchAux keys key (keys.length + 1) 0 keys.length none
      with ⟨ex, base, rref⟩
    have hsome := intBsearch_rref_start keys key (keys.length + 1) 0 keys.length none
      hlen (by omega)
    rw [hres] at hsome
    cases rref with
    | none => simp at hsome
    | some r =>
      unfold __wt_row_search_descend
      rw [hres]
      cases ex with
      | some i => exact ⟨i, rfl⟩
      | none => exact ⟨base - 1, rfl⟩

/-- Witness for C6: the empty routing array asserts; a one-entry page always
chooses a child. -/
theorem C6_descend_assertion_witness :
    (__wt_row_search_descend ([] : List Nat) 7 = .corrupt) ∧
    (∃ idx, __wt_row_search_descend ([4] : List Nat) 7 = .chosen idx) :=
  ⟨(C6_descend_assertion ([] : List Nat) 7).1 rfl,
   (C6_descend_assertion ([4] : List Nat) 7).2 (by decide)⟩

/-- C1: the claim requires point search and all three backward iterators to
surface the insert-list update U for a record, never the on-disk value.  The
fixed-length iterator instead reads the update through cbt->ins — the
cursor's stale ins field, which the column iterators never set: with a
cleared cursor the matching record crashes on a NULL dereference, and with a
stale node left by an earlier search it returns that node's value for a
different record number (value 7 is returned for record 3 whose own live
update is 8), so the claim fails on the code. -/
theorem C1_merge_override_code_bug :
    (__prev_fix ⟨1, 1, [9], [⟨1, ⟨false, [7]⟩⟩]⟩ true ⟨[], 0, 0, none⟩ = .nullDeref) ∧
    (__prev_fix ⟨1, 3, [10, 11, 12], [⟨2, ⟨false, [7]⟩⟩, ⟨3, ⟨false, [8]⟩⟩]⟩ true
      ⟨[], 0, 0, some ⟨2, ⟨false, [7]⟩⟩⟩ =
      .ok ⟨[⟨2, ⟨false, [7]⟩⟩, ⟨3, ⟨false, [8]⟩⟩], 2, 2, some ⟨2, ⟨false, [7]⟩⟩⟩ 3 [7]) :=
  ⟨by decide, by decide⟩

/-- C8: __wt_btcur_last is exactly resetting the cursor and then invoking
__wt_btcur_prev — the same WalkRes (record plus final cursor position, or
the not-found sentinel) on every tree and every starting cursor state. -/
theorem C8_last_is_clear_then_prev {K : Type} [Inhabited K]
    (pages : List (RowLeafPage K)) (cur : Option (Nat × RowCbt K)) :
    __wt_btcur_last pages cur = lastSpec pages cur := rfl

theorem row_search_leaf_exact {K : Type} [LinearOrder K] [Inhabited K]
    (page : RowSearchPage K) (key : K) (is_modify : Bool) (cbt0 : SearchCbt K)
    (indx base : Nat) (hres : leafBsearch page.keys key = (some indx, base)) :
    __wt_row_search_leaf page key is_modify cbt0 =
      { slot := indx, rip := some indx, ins_head := none, ins := none, cmatch := true,
        write_gen := if is_modify then page.write_gen else 0,
        ins_stack := cbt0.ins_stack } := by
  unfold __wt_row_search_leaf __search_reset
  rw [hres]
  cases is_modify <;> rfl

theorem row_search_leaf_nonexact {K : Type} [LinearOrder K] [Inhabited K]
    (page : RowSearchPage K) (key : K) (is_modify : Bool) (cbt0 : SearchCbt K)
    (base : Nat) (hres : leafBsearch page.keys key = (none, base)) :
    __wt_row_search_leaf page key is_modify cbt0 =
      { slot := if base = 0 then page.keys.length else base - 1,
        rip := some (if base = 0 then 0 else base - 1),
        ins_head := if base = 0 then page.insSmallest
                    else page.insSlot.getD (base - 1) none,
        ins := match (__search_insert page.arena
            (if base = 0 then page.insSmallest else page.insSlot.getD (base - 1) none)
            key cbt0.ins_stack).1 with
          | .foundNode j => some j
          | _ => none,
        cmatch := match (__search_insert page.arena
            (if base = 0 then page.insSmallest else page.insSlot.getD (base - 1) none)
            key cbt0.ins_stack).1 with
          | .foundNode _ => true
          | _ => false,
        write_gen := if is_modify then page.write_gen else 0,
        ins_stack := (__search_insert page.arena
            (if base = 0 then page.insSmallest else page.insSlot.getD (base - 1) none)
            key cbt0.ins_stack).2 } := by
  unfold __wt_row_search_leaf __search_reset
  rw [hres]
  by_cases hb : base = 0 <;> cases is_modify <;> simp [hb]

/-- C10: when the leaf binary search of __wt_row_search breaks on an exact
slot match, the returned cursor still carries the reset insert-list fields
(ins_head and ins are NULL), and write_gen holds the page's write generation
exactly when the for-modification flag was passed, the reset value 0
otherwise — a skip-list anchor exists only on the non-exact-slot path. -/
theorem C10_exact_match_frame {K : Type} [LinearOrder K] [Inhabited K]
    (page : RowSearchPage K) (key : K) (is_modify : Bool) (cbt0 : SearchCbt K)
    (indx base : Nat) (hres : leafBsearch page.keys key = (some indx, base)) :
    (__wt_row_search_leaf page key is_modify cbt0).ins_head = none ∧
    (__wt_row_search_leaf page key is_modify cbt0).ins = none ∧
    (__wt_row_search_leaf page key is_modify cbt0).write_gen =
      (if is_modify then page.write_gen else 0) := by
  rw [row_search_leaf_exact page key is_modify cbt0 indx base hres]
  exact ⟨rfl, rfl, rfl⟩

/-- Witness for C10: a concrete exact-slot hit with a dirty incoming cursor,
with and without the for-modification flag. -/
theorem C10_exact_match_frame_witness :
    ((__wt_row_search_leaf (⟨[5], [], some ⟨[some 0]⟩, [none], 42⟩ : RowSearchPage Nat)
        5 false ⟨0, some 9, some ⟨[some 3]⟩, some 4, true, 77, []⟩).ins_head = none ∧
     (__wt_row_search_leaf (⟨[5], [], some ⟨[some 0]⟩, [none], 42⟩ : RowSearchPage Nat)
        5 false ⟨0, some 9, some ⟨[some 3]⟩, some 4, true, 77, []⟩).ins = none ∧
     (__wt_row_search_leaf (⟨[5], [], some ⟨[some 0]⟩, [none], 42⟩ : RowSearchPage Nat)
        5 false ⟨0, some 9, some ⟨[some 3]⟩, some 4, true, 77, []⟩).write_gen =
       (if false then (42 : Nat) else 0)) ∧
    (__wt_row_search_leaf (⟨[5], [], some ⟨[some 0]⟩, [none], 42⟩ : RowSearchPage Nat)
        5 true ⟨0, some 9, some ⟨[some 3]⟩, some 4, true, 77, []⟩).write_gen =
      (if true then (42 : Nat) else 0) :=
  ⟨C10_exact_match_frame ⟨[5], [], some ⟨[some 0]⟩, [none], 42⟩ 5 false
      ⟨0, some 9, some ⟨[some 3]⟩, some 4, true, 77, []⟩ 0 0 (by decide),
   (C10_exact_match_frame ⟨[5], [], some ⟨[some 0]⟩, [none], 42⟩ 5 true
      ⟨0, some 9, some ⟨[some 3]⟩, some 4, true, 77, []⟩ 0 0 (by decide)).2.2⟩

/-- C4: an exact leaf-slot match returns a match at that slot immediately
with no insert-list search (the insert fields stay NULL); otherwise exactly
one insert list is consulted — the before-slot-0 list with the extra slot
index entries when base is 0, else the list attached to slot base - 1 — and
the search reports a match precisely when that skip-list search finds an
exact node. -/
theorem C4_row_search_leaf_dispatch {K : Type} [LinearOrder K] [Inhabited K]
    (page : RowSearchPage K) (key : K) (is_modify : Bool) (cbt0 : SearchCbt K) :
    (∀ indx base2, leafBsearch page.keys key = (some indx, base2) →
      (__wt_row_search_leaf page key is_modify cbt0).cmatch = true ∧
      (__wt_row_search_leaf page key is_modify cbt0).slot = indx ∧
      (__wt_row_search_leaf page key is_modify cbt0).ins_head = none ∧
      (__wt_row_search_leaf page key is_modify cbt0).ins = none) ∧
    (∀ base, leafBsearch page.keys key = (none, base) →
      (__wt_row_search_leaf page key is_modify cbt0).ins_head =
        (if base = 0 then page.insSmallest else page.insSlot.getD (base - 1) none) ∧
      (__wt_row_search_leaf page key is_modify cbt0).slot =
        (if base = 0 then page.keys.length else base - 1) ∧
      ((__wt_row_search_leaf page key is_modify cbt0).cmatch = true ↔
        ∃ j, (__search_insert page.arena
          (if base = 0 then page.insSmallest else page.insSlot.getD (base - 1) none)
          key cbt0.ins_stack).1 = .foundNode j)) := by
  constructor
  · intro indx base2 hres
    rw [row_search_leaf_exact page key is_modify cbt0 indx base2 hres]
    exact ⟨rfl, rfl, rfl, rfl⟩
  · intro base hres
    rw [row_search_leaf_nonexact page key is_modify cbt0 base hres]
    refine ⟨rfl, rfl, ?_⟩
    cases hsr : (__search_insert page.arena
        (if base = 0 then page.insSmallest else page.insSlot.getD (base - 1) none)
        key cbt0.ins_stack).1 with
    | foundNode j => simp [hsr]
    | notfound => simp [hsr]
    | fuelOut => simp [hsr]

/-- Witness for C4: an exact slot hit on one concrete page, and a non-exact
boundary resolved through slot base - 1's insert list on another, where the
skip-list search finds the key. -/
theorem C4_row_search_leaf_dispatch_witness :
    ((__wt_row_search_leaf (⟨[5], [], none, [none], 0⟩ : RowSearchPage Nat)
        5 false ⟨0, none, none, none, false, 0, []⟩).cmatch = true) ∧
    ((__wt_row_search_leaf
        (⟨[2, 6], [⟨4, ⟨false, [9]⟩, [none]⟩], none, [some ⟨[some 0]⟩, none], 0⟩ :
          RowSearchPage Nat) 4 false ⟨0, none, none, none, false, 0, []⟩).cmatch = true) ∧
    ((__wt_row_search_leaf
        (⟨[2, 6], [⟨4, ⟨false, [9]⟩, [none]⟩], none, [some ⟨[some 0]⟩, none], 0⟩ :
          RowSearchPage Nat) 4 false ⟨0, none, none, none, false, 0, []⟩).slot = 0) :=
  ⟨((C4_row_search_leaf_dispatch ⟨[5], [], none, [none], 0⟩ 5 false
      ⟨0, none, none, none, false, 0, []⟩).1 0 0 (by decide)).1,
   ((C4_row_search_leaf_dispatch
      ⟨[2, 6], [⟨4, ⟨false, [9]⟩, [none]⟩], none, [some ⟨[some 0]⟩, none], 0⟩ 4 false
      ⟨0, none, none, none, false, 0, []⟩).2 1 (by decide)).2.2.mpr ⟨0, by decide⟩,
   (((C4_row_search_leaf_dispatch
      ⟨[2, 6], [⟨4, ⟨false, [9]⟩, [none]⟩], none, [some ⟨[some 0]⟩, none], 0⟩ 4 false
      ⟨0, none, none, none, false, 0, []⟩).2 1 (by decide)).2.1).trans (by decide)⟩

theorem sorted_getD_lt {K : Type} [LinearOrder K] [Inhabited K]
    {keys : List K} (hs : keys.Pairwise (· < ·)) {i j : Nat}
    (hij : i < j) (hj : j < keys.length) :
    keys.getD i default < keys.getD j default := by
  have hi : i < keys.length := by omega
  rw [List.getD_eq_getElem?_getD, List.getElem?_eq_getElem hi,
      List.getD_eq_getElem?_getD, List.getElem?_eq_getElem hj]
  exact List.pairwise_iff_getElem.mp hs i j hi hj hij

theorem sgAux_spec {K : Type} [LinearOrder K] [Inhabited K] (key : K) :
    ∀ (l : List K) (j0 : Nat),
      (∀ j, sgAux key l j0 = some j →
        j0 ≤ j ∧ j - j0 < l.length ∧ j ≠ 0 ∧ key < l.getD (j - j0) default ∧
        ∀ i, i < j - j0 → ¬(j0 + i ≠ 0 ∧ key < l.getD i default)) ∧
      (sgAux key l j0 = none →
        ∀ i, i < l.length → ¬(j0 + i ≠ 0 ∧ key < l.getD i default)) := by
  intro l
  induction l with
  | nil =>
    intro j0
    constructor
    · intro j h
      simp [sgAux] at h
    · intro _ i hi
      simp at hi
  | cons k rest ih =>
    intro j0
    constructor
    · intro j h
      rw [sgAux] at h
      split at h
      · rename_i hc
        cases h
        refine ⟨le_refl _, by simp, hc.1, by simpa using hc.2, ?_⟩
        intro i hi
        omega
      · rename_i hc
        obtain ⟨h1, h2, h3, h4, h5⟩ := (ih (j0 + 1)).1 j h
        refine ⟨by omega, by simp; omega, h3, ?_, ?_⟩
        · have he : j - j0 = (j - (j0 + 1)) + 1 := by omega
          rw [he]
          simpa using h4
        · intro i hi
          cases i with
          | zero => simpa using hc
          | succ i2 =>
            have h6 := h5 i2 (by omega)
            intro hcon
            exact h6 ⟨by omega, by simpa using hcon.2⟩
    · intro h i hi
      rw [sgAux] at h
      split at h
      · simp at h
      · rename_i hc
        cases i with
        | zero => simpa using hc
        | succ i2 =>
          have h6 := (ih (j0 + 1)).2 h i2 (by simpa using hi)
          intro hcon
          exact h6 ⟨by omega, by simpa using hcon.2⟩

theorem specChild_eq {K : Type} [LinearOrder K] [Inhabited K]
    (keys : List K) (key : K) (c : Nat)
    (hn : c < keys.length)
    (h1 : ∀ j, j ≤ c → j ≠ 0 → ¬ key < keys.getD j default)
    (h2 : ∀ j, c < j → j < keys.length → key < keys.getD j default) :
    specChild keys key = c := by
  unfold specChild
  cases hsg : sgAux key keys 0 with
  | some j =>
    obtain ⟨hj0, hlen, hne, hlt, hmin⟩ := (sgAux_spec key keys 0).1 j hsg
    simp only [Nat.sub_zero] at hlen hlt hmin
    have hjc : ¬ j ≤ c := fun hle => h1 j hle hne hlt
    have hje : j = c + 1 := by
      by_contra hne2
      have hcj : c + 1 < j := by omega
      have h7 := hmin (c + 1) hcj
      have hk := h2 (c + 1) (by omega) (by omega)
      exact h7 ⟨by omega, by simpa using hk⟩
    show j - 1 = c
    omega
  | none =>
    have hall := (sgAux_spec key keys 0).2 hsg
    show keys.length - 1 = c
    by_contra hne2
    have hc1 : c + 1 < keys.length := by omega
    exact hall (c + 1) hc1 ⟨by omega, h2 (c + 1) (by omega) hc1⟩

theorem intBsearch_char {K : Type} [LinearOrder K] [Inhabited K]
    (keys : List K) (key : K) (hs : keys.Pairwise (· < ·)) :
    ∀ fuel base limit rref ex b2 r2,
      limit < fuel →
      base + limit ≤ keys.length →
      (∀ j, j < base → j ≠ 0 → keys.getD j default < key) →
      (∀ j, base + limit ≤ j → j < keys.length → key < keys.getD j default) →
      intBsearchAux keys key fuel base limit rref = (ex, b2, r2) →
      (∀ i, ex = some i → i ≠ 0 ∧ i < keys.length ∧ keys.getD i default = key) ∧
      (ex = none →
        (∀ j, j < b2 → j ≠ 0 → keys.getD j default < key) ∧
        (∀ j, b2 ≤ j → j < keys.length → key < keys.getD j default) ∧
        b2 ≤ keys.length ∧ ((1 ≤ base ∨ 1 ≤ limit) → 1 ≤ b2)) := by
  intro fuel
  induction fuel with
  | zero =>
    intro base limit rref ex b2 r2 hf
    omega
  | succ f ih =>
    intro base limit rref ex b2 r2 hf hbound hA hB hres
    rw [intBsearchAux] at hres
    split at hres
    · rename_i hlim
      cases hres
      constructor
      · intro i hi
        simp at hi
      · intro _
        subst hlim
        refine ⟨hA, by simpa using hB, by omega, by omega⟩
    · rename_i hlim
      dsimp only at hres
      split at hres
      · rename_i hindx
        split at hres
        · rename_i hcmp
          cases hres
          constructor
          · intro i hi
            cases hi
            exact ⟨hindx, by omega, (compare_eq_iff_eq.mp hcmp).symm⟩
          · intro h
            simp at h
        · rename_i hcmp
          have hklt : key < keys.getD (base + limit / 2) default :=
            compare_lt_iff_lt.mp hcmp
          have hB2 : ∀ j, base + limit / 2 ≤ j → j < keys.length →
              key < keys.getD j default := by
            intro j hj hjlen
            rcases Nat.lt_or_ge j (base + limit) with hc | hc
            · rcases Nat.eq_or_lt_of_le hj with he | hlt2
              · exact he ▸ hklt
              · exact lt_trans hklt (sorted_getD_lt hs hlt2 hjlen)
            · exact hB j hc hjlen
          have hrec := ih base (limit / 2) (some (base + limit / 2)) ex b2 r2
            (by omega) (by omega) hA hB2 hres
          refine ⟨hrec.1, fun he => ?_⟩
          obtain ⟨x1, x2, x3, x4⟩ := hrec.2 he
          exact ⟨x1, x2, x3, fun _ => x4 (by omega)⟩
        · rename_i hcmp
          have hkgt : keys.getD (base + limit / 2) default < key :=
            compare_gt_iff_gt.mp hcmp
          have hA2 : ∀ j, j < base + limit / 2 + 1 → j ≠ 0 →
              keys.getD j default < key := by
            intro j hj hne
            rcases Nat.lt_or_ge j base with hc | hc
            · exact hA j hc hne
            · rcases Nat.eq_or_lt_of_le (Nat.le_of_lt_succ hj) with he | hlt2
              · rw [he]
                exact hkgt
              · exact lt_trans (sorted_getD_lt hs hlt2 (by omega)) hkgt
          have hB2 : ∀ j, base + limit / 2 + 1 + (limit - 1) / 2 ≤ j →
              j < keys.length → key < keys.getD j default := by
            intro j hj hjlen
            exact hB j (by omega) hjlen
          have hrec := ih (base + limit / 2 + 1) ((limit - 1) / 2)
            (some (base + limit / 2)) ex b2 r2 (by omega) (by omega) hA2 hB2 hres
          refine ⟨hrec.1, fun he => ?_⟩
          obtain ⟨x1, x2, x3, x4⟩ := hrec.2 he
          exact ⟨x1, x2, x3, fun _ => x4 (by omega)⟩
      · rename_i hindx
        have hb0 : base = 0 := by omega
        have hl1 : limit = 1 := by omega
        subst hb0
        subst hl1
        have hA2 : ∀ j, j < 0 + 1 / 2 + 1 → j ≠ 0 → keys.getD j default < key := by
          intro j hj hne
          omega
        have hB2 : ∀ j, 0 + 1 / 2 + 1 + (1 - 1) / 2 ≤ j → j < keys.length →
            key < keys.getD j default := by
          intro j hj hjlen
          exact hB j (by omega) hjlen
        have hrec := ih (0 + 1 / 2 + 1) ((1 - 1) / 2) (some (0 + 1 / 2)) ex b2 r2
          (by omega) (by omega) hA2 hB2 hres
        refine ⟨hrec.1, fun he => ?_⟩
        obtain ⟨x1, x2, x3, x4⟩ := hrec.2 he
        exact ⟨x1, x2, x3, fun _ => x4 (by omega)⟩

/-- C5: on every internal page whose routing keys are sorted, the child the
descent chooses is the routing entry immediately preceding the smallest
entry that compares greater than the search key (the last entry if none
does), with the 0th entry treated as sorting below every application key;
in particular a key smaller than all routing keys descends through entry 0. -/
theorem C5_descend_child_choice {K : Type} [LinearOrder K] [Inhabited K]
    (keys : List K) (key : K) (hs : keys.Pairwise (· < ·)) (hne : keys ≠ []) :
    __wt_row_search_descend keys key = .chosen (specChild keys key) ∧
    ((∀ j, j ≠ 0 → j < keys.length → key < keys.getD j default) →
      __wt_row_search_descend keys key = .chosen 0) := by
  have hlen : 1 ≤ keys.length := List.length_pos.mpr hne
  rcases hres : intBsearchAux keys key (keys.length + 1) 0 keys.length none
    with ⟨ex, b2, r2⟩
  have hsome := intBsearch_rref_start keys key (keys.length + 1) 0 keys.length none
    hlen (by omega)
  rw [hres] at hsome
  have hchar := intBsearch_char keys key hs (keys.length + 1) 0 keys.length none
    ex b2 r2 (by omega) (by omega) (by omega) (by intro j hj hjl; omega) hres
  have hmain : __wt_row_search_descend keys key = .chosen (specChild keys key) := by
    cases r2 with
    | none => simp at hsome
    | some r =>
      unfold __wt_row_search_descend
      rw [hres]
      cases ex with
      | some i =>
        obtain ⟨hi0, hilen, hieq⟩ := hchar.1 i rfl
        have hspec : specChild keys key = i := by
          apply specChild_eq keys key i hilen
          · intro j hj hjne
            rcases Nat.eq_or_lt_of_le hj with he | hlt2
            · rw [he, hieq]
              exact lt_irrefl key
            · rw [← hieq]
              exact not_lt.mpr (le_of_lt (sorted_getD_lt hs hlt2 hilen))
          · intro j hj hjlen
            rw [← hieq]
            exact sorted_getD_lt hs hj hjlen
        rw [hspec]
      | none =>
        obtain ⟨x1, x2, x3, x4⟩ := hchar.2 rfl
        have hb1 : 1 ≤ b2 := x4 (by omega)
        have hspec : specChild keys key = b2 - 1 := by
          apply specChild_eq keys key (b2 - 1) (by omega)
          · intro j hj hjne
            exact not_lt.mpr (le_of_lt (x1 j (by omega) hjne))
          · intro j hj hjlen
            exact x2 j (by omega) hjlen
        rw [hspec]
  refine ⟨hmain, fun hall => ?_⟩
  have hzero : specChild keys key = 0 := by
    apply specChild_eq keys key 0 (by omega)
    · intro j hj hjne
      omega
    · intro j hj hjlen
      exact hall j (by omega) hjlen
  rw [hmain, hzero]

/-- Witness for C5: the sorted routing array [3, 10, 20]; key 12 descends
through entry 1 (the entry preceding 20, the smallest entry above 12), and
key 1, below all routing keys, descends through entry 0. -/
theorem C5_descend_child_choice_witness :
    (__wt_row_search_descend ([3, 10, 20] : List Nat) 12 =
      .chosen (specChild ([3, 10, 20] : List Nat) 12)) ∧
    (specChild ([3, 10, 20] : List Nat) 12 = 1) ∧
    (__wt_row_search_descend ([3, 10, 20] : List Nat) 1 = .chosen 0) :=
  ⟨(C5_descend_child_choice ([3, 10, 20] : List Nat) 12 (by decide) (by decide)).1,
   by decide,
   (C5_descend_child_choice ([3, 10, 20] : List Nat) 1 (by decide) (by decide)).2
     (by
       intro j hj hjl
       have h3 : j < 3 := by simpa using hjl
       interval_cases j
       · exact absurd rfl hj
       · decide
       · decide)⟩

theorem varRun_out_le (insHead : List ColIns) (cbtIns : Option ColIns)
    (value : List Nat) :
    ∀ rle recno r2 rl2 outr outv,
      varRun insHead cbtIns value rle recno = .out r2 rl2 outr outv →
      outr ≤ recno := by
  intro rle
  induction rle with
  | zero =>
    intro recno r2 rl2 outr outv h
    simp [varRun] at h
  | succ r ih =>
    intro recno r2 rl2 outr outv h
    simp only [varRun] at h
    split at h
    · cases h
      exact le_refl _
    · split at h
      · simp at h
      · split at h
        · split at h
          · exact le_trans (ih _ _ _ _ _ h) (by omega)
          · cases h
            exact le_refl _
        · cases h
          exact le_refl _

theorem varRun_exhausted_le (insHead : List ColIns) (cbtIns : Option ColIns)
    (value : List Nat) :
    ∀ rle recno recno2,
      varRun insHead cbtIns value rle recno = .exhausted recno2 →
      recno2 ≤ recno := by
  intro rle
  induction rle with
  | zero =>
    intro recno recno2 h
    simp only [varRun] at h
    cases h
    exact le_refl _
  | succ r ih =>
    intro recno recno2 h
    simp only [varRun] at h
    split at h
    · simp at h
    · split at h
      · simp at h
      · split at h
        · split at h
          · exact le_trans (ih _ _ h) (by omega)
          · simp at h
        · simp at h

theorem varCells_out_le (page : VarPage) (cbtIns : Option ColIns) :
    ∀ ns cip recno lastTy cbt2 outr outv,
      varCells page cbtIns ns cip recno lastTy = .ok cbt2 outr outv →
      outr ≤ recno := by
  intro ns
  induction ns with
  | zero =>
    intro cip recno lastTy cbt2 outr outv h
    simp [varCells] at h
  | succ ns ih =>
    intro cip recno lastTy cbt2 outr outv h
    rw [varCells] at h
    split at h
    · rename_i cell hcell
      dsimp only at h
      split at h
      · exact le_trans (ih _ _ _ _ _ _ h) (by omega)
      · split at h
        · rename_i r2 rl2 outr2 outv2 hrun
          cases h
          exact varRun_out_le _ _ _ _ _ _ _ _ _ hrun
        · rename_i recno2 hrun
          exact le_trans (ih _ _ _ _ _ _ h)
            (varRun_exhausted_le _ _ _ _ _ _ hrun)
        · simp at h
    · dsimp only at h
      split at h
      · exact le_trans (ih _ _ _ _ _ _ h) (by omega)
      · split at h
        · rename_i r2 rl2 outr2 outv2 hrun
          cases h
          exact varRun_out_le _ _ _ _ _ _ _ _ _ hrun
        · rename_i recno2 hrun
          exact le_trans (ih _ _ _ _ _ _ h)
            (varRun_exhausted_le _ _ _ _ _ _ hrun)
        · simp at h

/-- C7: in __prev_var, a cell whose unpacked type is a deletion run and whose
slot has no insert list is skipped in one step: the record number drops by
the cell's full RLE count and the loop moves to the previous cell with no
per-record insert-list lookup; every record the call can still return has a
record number at or below the skipped run, so none of the run's record
numbers is returned. -/
theorem C7_del_run_skip (page : VarPage) (cbtIns : Option ColIns)
    (ns cip recno : Nat) (lastTy : Option VarCellTy) (cell : VarCell)
    (hcell : page.cols.getD cip none = some cell)
    (hdel : cell.ty = .del)
    (hins : page.insCol.getD cip [] = []) :
    varCells page cbtIns (ns + 1) cip recno lastTy =
      varCells page cbtIns ns (cip - 1) (recno - cell.rle) (some cell.ty) ∧
    (∀ cbt2 outr outv,
      varCells page cbtIns (ns + 1) cip recno lastTy = .ok cbt2 outr outv →
      outr ≤ recno - cell.rle) := by
  have hstep : varCells page cbtIns (ns + 1) cip recno lastTy =
      varCells page cbtIns ns (cip - 1) (recno - cell.rle) (some cell.ty) := by
    rw [varCells, hcell]
    dsimp only
    rw [hins, hdel]
    simp
  refine ⟨hstep, fun cbt2 outr outv h => ?_⟩
  rw [hstep] at h
  exact varCells_out_le page cbtIns ns _ _ _ _ _ _ h

/-- Witness for C7: a two-cell page whose last cell is a deletion run of
length 2 with no insert list; the call skips straight to the value cell and
the returned record number 2 sits below the skipped run. -/
theorem C7_del_run_skip_witness :
    (varCells ⟨1, [some ⟨.val [3], 1⟩, some ⟨.del, 2⟩], [[], []]⟩ none 2 1 4 none =
      varCells ⟨1, [some ⟨.val [3], 1⟩, some ⟨.del, 2⟩], [[], []]⟩ none 1 0 2
        (some .del)) ∧
    (2 : Nat) ≤ 4 - 2 :=
  ⟨(C7_del_run_skip ⟨1, [some ⟨.val [3], 1⟩, some ⟨.del, 2⟩], [[], []]⟩ none 1 1 4 none
      ⟨.del, 2⟩ (by decide) rfl (by decide)).1,
   (C7_del_run_skip ⟨1, [some ⟨.val [3], 1⟩, some ⟨.del, 2⟩], [[], []]⟩ none 1 1 4 none
      ⟨.del, 2⟩ (by decide) rfl (by decide)).2
     ⟨0, 1, 1, 0, [], [3], none⟩ 2 [3] (by decide)⟩

theorem prevFixLoop_recno_ge (page : FixPage) (insHead : List ColIns)
    (cbtIns : Option ColIns) :
    ∀ ns recno cbt2 outr outv,
      recno + 1 = page.recno + ns →
      prevFixLoop page insHead cbtIns ns recno = .ok cbt2 outr outv →
      page.recno ≤ outr := by
  intro ns
  induction ns with
  | zero =>
    intro recno cbt2 outr outv hinv h
    simp [prevFixLoop] at h
  | succ ns ih =>
    intro recno cbt2 outr outv hinv h
    rw [prevFixLoop] at h
    split at h
    · simp at h
    · cases ns with
      | zero => simp [prevFixLoop] at h
      | succ ns2 => exact ih (recno - 1) cbt2 outr outv (by omega) h
    · cases h
      omega
    · cases h
      omega

/-- C9: the previous-record walk returns the WT_NOTFOUND sentinel, not an
error, on an entirely empty tree and when the backward iterator walks off
the first leaf; within a fixed-length column page the iterator reports
end-of-page once the slot count is exhausted and never returns a record
number below the page's base record number. -/
theorem C9_prev_notfound_bounds {K : Type} [Inhabited K] :
    (__wt_btcur_prev ([] : List (RowLeafPage K)) none = .notfound) ∧
    (∀ (pages : List (RowLeafPage K)) (cbt : RowCbt K),
      prevRowStep (pages.getD 0 default) cbt = none →
      __wt_btcur_prev pages (some (0, cbt)) = .notfound) ∧
    (∀ (page : FixPage) (st : FixCbt), st.nslots = 0 →
      __prev_fix page false st = .notfound) ∧
    (∀ (page : FixPage) (st : FixCbt) cbt2 outr outv,
      st.recno + 1 = page.recno + st.nslots →
      __prev_fix page false st = .ok cbt2 outr outv → page.recno ≤ outr) ∧
    (∀ (page : FixPage) (st : FixCbt) cbt2 outr outv,
      __prev_fix page true st = .ok cbt2 outr outv → page.recno ≤ outr) := by
  refine ⟨rfl, ?_, ?_, ?_, ?_⟩
  · intro pages cbt hstep
    simp only [__wt_btcur_prev]
    rw [hstep]
  · intro page st hns
    simp [__prev_fix, hns, prevFixLoop]
  · intro page st cbt2 outr outv hinv h
    simp only [__prev_fix, Bool.false_eq_true, if_false] at h
    exact prevFixLoop_recno_ge page st.ins_head st.ins st.nslots st.recno cbt2
      outr outv hinv h
  · intro page st cbt2 outr outv h
    simp only [__prev_fix, if_true] at h
    cases hent : page.entries with
    | zero =>
      rw [hent] at h
      simp [prevFixLoop] at h
    | succ e =>
      rw [hent] at h
      exact prevFixLoop_recno_ge page page.ins_head st.ins (e + 1)
        (page.recno + (e + 1 - 1)) cbt2 outr outv (by omega) h

/-- Witness for C9: the empty tree, a one-leaf tree with an exhausted
iterator state, a zero-slot fixed cursor, and the concrete fixed page of the
spec's scenario (base 100, 4 entries) returning record 103 at or above the
base both from a resumed state and from a new page. -/
theorem C9_prev_notfound_bounds_witness :
    (__wt_btcur_prev ([] : List (RowLeafPage Nat)) none = .notfound) ∧
    (__wt_btcur_prev ([⟨[⟨2, none, none⟩], [], [[]]⟩] : List (RowLeafPage Nat))
      (some (0, ⟨0, [], 0, false, false⟩)) = .notfound) ∧
    (__prev_fix ⟨100, 4, [10, 11, 12, 13], []⟩ false ⟨[], 0, 99, none⟩ = .notfound) ∧
    ((100 : Nat) ≤ 103) ∧
    ((100 : Nat) ≤ 103) :=
  ⟨(C9_prev_notfound_bounds (K := Nat)).1,
   (C9_prev_notfound_bounds (K := Nat)).2.1 [⟨[⟨2, none, none⟩], [], [[]]⟩]
     ⟨0, [], 0, false, false⟩ (by decide),
   (C9_prev_notfound_bounds (K := Nat)).2.2.1 ⟨100, 4, [10, 11, 12, 13], []⟩
     ⟨[], 0, 99, none⟩ rfl,
   (C9_prev_notfound_bounds (K := Nat)).2.2.2.1 ⟨100, 4, [10, 11, 12, 13], []⟩
     ⟨[], 4, 103, none⟩ ⟨[], 3, 102, none⟩ 103 [13] (by decide) (by decide),
   (C9_prev_notfound_bounds (K := Nat)).2.2.2.2 ⟨100, 4, [10, 11, 12, 13], []⟩
     ⟨[], 0, 0, none⟩ ⟨[], 3, 102, none⟩ 103 [13] (by decide)⟩

theorem take_filter_succ_deleted {K : Type} [Inhabited K] (h : List (RowIns K)) (p : Nat)
    (hdel : (h.getD p default).upd.deleted = true) :
    (h.take (p + 1)).filter (fun n => !n.upd.deleted) =
      (h.take p).filter (fun n => !n.upd.deleted) := by
  rcases Nat.lt_or_ge p h.length with hp | hp
  · rw [List.take_succ, List.getElem?_eq_getElem hp, List.filter_append]
    rw [List.getD_eq_getElem h default hp] at hdel
    simp [hdel]
  · rw [List.take_of_length_le (by omega), List.take_of_length_le (by omega)]

theorem getD_live_lt {K : Type} [Inhabited K] (h : List (RowIns K)) (p : Nat)
    (hlive : (h.getD p default).upd.deleted = false) : p < h.length := by
  by_contra hc
  rw [List.getD_eq_default h default (by omega)] at hlive
  simp [default] at hlive

theorem take_filter_succ_live {K : Type} [Inhabited K] (h : List (RowIns K)) (p : Nat)
    (hlive : (h.getD p default).upd.deleted = false) :
    (h.take (p + 1)).filter (fun n => !n.upd.deleted) =
      (h.take p).filter (fun n => !n.upd.deleted) ++ [h.getD p default] := by
  have hp : p < h.length := getD_live_lt h p hlive
  rw [List.take_succ, List.getElem?_eq_getElem hp, List.filter_append]
  rw [List.getD_eq_getElem h default hp] at hlive ⊢
  simp [hlive]

theorem insPhase_none_filter {K : Type} [Inhabited K] (h : List (RowIns K)) :
    ∀ p, insPhase h p = none →
      (h.take p).filter (fun n => !n.upd.deleted) = [] := by
  intro p
  induction p with
  | zero => intro _; rfl
  | succ p ih =>
    intro hnone
    rw [insPhase] at hnone
    split at hnone
    · rename_i hdel
      rw [take_filter_succ_deleted h p (by simpa using hdel)]
      exact ih hnone
    · simp at hnone

theorem insPhase_some_filter {K : Type} [Inhabited K] (h : List (RowIns K)) :
    ∀ p c n, insPhase h p = some (c, n) →
      1 ≤ c ∧ c ≤ p ∧ n = h.getD (c - 1) default ∧ n.upd.deleted = false ∧
      (h.take p).filter (fun x => !x.upd.deleted) =
        ((h.take (c - 1)).filter (fun x => !x.upd.deleted)) ++ [n] := by
  intro p
  induction p with
  | zero =>
    intro c n hsome
    simp [insPhase] at hsome
  | succ p ih =>
    intro c n hsome
    rw [insPhase] at hsome
    split at hsome
    · rename_i hdel
      obtain ⟨h1, h2, h3, h4, h5⟩ := ih c n hsome
      exact ⟨h1, by omega, h3, h4,
        by rw [take_filter_succ_deleted h p (by simpa using hdel)]; exact h5⟩
    · rename_i hlive
      cases hsome
      have hl : (h.getD p default).upd.deleted = false := by
        simpa using hlive
      refine ⟨by omega, le_refl _, by simp, hl, ?_⟩
      simpa using take_filter_succ_live h p hl

theorem slotEmit_reverse {K : Type} [Inhabited K] (page : RowLeafPage K) (s : Nat) :
    (slotEmit page s).reverse = slotEmit page s := by
  simp only [slotEmit]
  cases (page.rows.getD s default).upd with
  | none => rfl
  | some u =>
    by_cases hd : u.deleted <;> simp [hd]

theorem slotDown_eq {K : Type} [Inhabited K] (page : RowLeafPage K) (s : Nat) :
    slotDown page s = slotEmit page s ++ descLive (preList page s) ++
      (match s with | 0 => [] | s2 + 1 => slotDown page s2) := by
  cases s with
  | zero => simp [slotDown]
  | succ s2 => rfl

theorem slotCost_mono {K : Type} (page : RowLeafPage K) :
    ∀ s t, s ≤ t → slotCost page s ≤ slotCost page t := by
  intro s t
  induction t with
  | zero =>
    intro hst
    have : s = 0 := by omega
    rw [this]
  | succ t ih =>
    intro hst
    rcases Nat.eq_or_lt_of_le hst with he | hlt
    · rw [he]
    · refine le_trans (ih (by omega)) ?_
      conv_rhs => rw [slotCost]
      omega

theorem descLive_nil_of_filter {K : Type} (l : List (RowIns K))
    (hf : l.filter (fun n => !n.upd.deleted) = []) : descLive l = [] := by
  simp [descLive, ascLive, hf]

theorem slotEmit_eq_deleted {K : Type} [Inhabited K] (page : RowLeafPage K) (s : Nat)
    (u : WT_UPDATE) (hu : (page.rows.getD s default).upd = some u)
    (hd : u.deleted = true) : slotEmit page s = [] := by
  simp only [slotEmit]
  rw [hu]
  simp [hd]

theorem slotEmit_eq_live {K : Type} [Inhabited K] (page : RowLeafPage K) (s : Nat)
    (u : WT_UPDATE) (hu : (page.rows.getD s default).upd = some u)
    (hd : u.deleted = false) :
    slotEmit page s = [((page.rows.getD s default).key, u.data)] := by
  simp only [slotEmit]
  rw [hu]
  simp [hd]

theorem slotEmit_eq_noupd {K : Type} [Inhabited K] (page : RowLeafPage K) (s : Nat)
    (hu : (page.rows.getD s default).upd = none) :
    slotEmit page s = [((page.rows.getD s default).key,
      match (page.rows.getD s default).cell with | some v => v | none => [])] := by
  simp only [slotEmit]
  rw [hu]

theorem descLive_take_all {K : Type} (l : List (RowIns K)) :
    descLive (l.take l.length) = descLive l := by
  rw [List.take_length]

theorem slotTry_lemma {K : Type} [Inhabited K] (page : RowLeafPage K) (s : Nat) :
    (slotTry page s = none →
      slotEmit page s = [] ∧ descLive (preList page s) = []) ∧
    (∀ st2 kv0, slotTry page s = some (st2, kv0) →
      slotEmit page s ++ descLive (preList page s) =
        kv0 :: descLive (st2.ins_head.take (pendingCount st2)) ∧
      st2.slot = s ∧ st2.ret_slot = false ∧
      2 * st2.ins_entry_cnt + (if st2.ret_insert then 1 else 0) ≤
        1 + 2 * (preList page s).length) := by
  constructor
  · intro hnone
    simp only [slotTry] at hnone
    split at hnone
    · rename_i u hu
      split at hnone
      · rename_i hdel
        split at hnone
        · simp at hnone
        · rename_i hip
          refine ⟨slotEmit_eq_deleted page s u hu (by simpa using hdel), ?_⟩
          apply descLive_nil_of_filter
          have hf := insPhase_none_filter (preList page s) (preList page s).length hip
          rwa [List.take_length] at hf
      · simp at hnone
    · simp at hnone
  · intro st2 kv0 hsome
    simp only [slotTry] at hsome
    split at hsome
    · rename_i u hu
      split at hsome
      · rename_i hdel
        split at hsome
        · rename_i c n hip
          cases hsome
          obtain ⟨h1, h2, h3, h4, h5⟩ :=
            insPhase_some_filter (preList page s) (preList page s).length c n hip
          rw [List.take_length] at h5
          refine ⟨?_, rfl, rfl, ?_⟩
          · rw [slotEmit_eq_deleted page s u hu (by simpa using hdel), List.nil_append]
            show descLive (preList page s) =
              (n.key, n.upd.data) :: descLive ((preList page s).take (c - 1))
            simp [descLive, ascLive, h5]
          · show 2 * c + 0 ≤ 1 + 2 * (preList page s).length
            omega
        · simp at hsome
      · rename_i hdel
        cases hsome
        refine ⟨?_, rfl, rfl, ?_⟩
        · rw [slotEmit_eq_live page s u hu (by simpa using hdel)]
          show _ = _ :: descLive ((preList page s).take
            (pendingCount ⟨s, preList page s, (preList page s).length, false, true⟩))
          have hp : pendingCount
              (⟨s, preList page s, (preList page s).length, false, true⟩ : RowCbt K) =
              (preList page s).length := rfl
          rw [hp, List.take_length]
          rfl
        · show 2 * (preList page s).length + 1 ≤
            1 + 2 * (preList page s).length
          omega
    · rename_i hu
      cases hsome
      refine ⟨?_, rfl, rfl, ?_⟩
      · rw [slotEmit_eq_noupd page s hu]
        show _ = _ :: descLive ((preList page s).take
          (pendingCount ⟨s, preList page s, (preList page s).length, false, true⟩))
        have hp : pendingCount
            (⟨s, preList page s, (preList page s).length, false, true⟩ : RowCbt K) =
            (preList page s).length := rfl
        rw [hp, List.take_length]
        rfl
      · show 2 * (preList page s).length + 1 ≤
          1 + 2 * (preList page s).length
        omega

theorem slotDown_succ {K : Type} [Inhabited K] (page : RowLeafPage K) (s2 : Nat) :
    slotDown page (s2 + 1) = slotEmit page (s2 + 1) ++
      (descLive (preList page (s2 + 1)) ++ slotDown page s2) := by
  simp only [slotDown, List.append_assoc]

theorem slotStep_lemma {K : Type} [Inhabited K] (page : RowLeafPage K) :
    ∀ s, (slotStep page s = none → slotDown page s = []) ∧
      (∀ st2 kv0, slotStep page s = some (st2, kv0) →
        slotDown page s = kv0 :: remainingRow page st2 ∧
        rowFuel page st2 < slotCost page s) := by
  intro s
  induction s with
  | zero =>
    constructor
    · intro hnone
      simp only [slotStep] at hnone
      obtain ⟨h1, h2⟩ := (slotTry_lemma page 0).1 hnone
      show slotEmit page 0 ++ descLive (preList page 0) = []
      rw [h1, h2]
      rfl
    · intro st2 kv0 hsome
      simp only [slotStep] at hsome
      obtain ⟨h1, h2, h3, h4⟩ := (slotTry_lemma page 0).2 st2 kv0 hsome
      constructor
      · show slotEmit page 0 ++ descLive (preList page 0) = kv0 :: remainingRow page st2
        have hr : remainingRow page st2 =
            descLive (st2.ins_head.take (pendingCount st2)) := by
          simp [remainingRow, h3, h2]
        rw [hr]
        exact h1
      · have hrf : rowFuel page st2 =
            2 * st2.ins_entry_cnt + (if st2.ret_insert then 1 else 0) := by
          simp [rowFuel, h3, h2]
        have hsc : slotCost page 0 = 2 + 2 * (preList page 0).length := rfl
        rw [hrf, hsc]
        omega
  | succ s2 ih =>
    constructor
    · intro hnone
      simp only [slotStep] at hnone
      split at hnone
      · simp at hnone
      · rename_i heq
        obtain ⟨h1, h2⟩ := (slotTry_lemma page (s2 + 1)).1 heq
        rw [slotDown_succ, h1, h2, ih.1 hnone]
        rfl
    · intro st2 kv0 hsome
      simp only [slotStep] at hsome
      split at hsome
      · rename_i r heq
        cases hsome
        obtain ⟨h1, h2, h3, h4⟩ := (slotTry_lemma page (s2 + 1)).2 st2 kv0 heq
        constructor
        · have hr : remainingRow page st2 =
              descLive (st2.ins_head.take (pendingCount st2)) ++ slotDown page s2 := by
            simp [remainingRow, h3, h2]
          rw [slotDown_succ, hr, ← List.append_assoc, h1]
          rfl
        · have hrf : rowFuel page st2 =
              2 * st2.ins_entry_cnt + (if st2.ret_insert then 1 else 0) +
                slotCost page s2 := by
            simp [rowFuel, h3, h2]
          have hsc : slotCost page (s2 + 1) =
              2 + 2 * (preList page (s2 + 1)).length + slotCost page s2 := rfl
          rw [hrf, hsc]
          omega
      · rename_i heq
        obtain ⟨h1, h2⟩ := (slotTry_lemma page (s2 + 1)).1 heq
        obtain ⟨hh1, hh2⟩ := ih.2 st2 kv0 hsome
        constructor
        · rw [slotDown_succ, h1, h2, hh1]
          rfl
        · exact lt_of_lt_of_le hh2 (slotCost_mono page s2 (s2 + 1) (by omega))

theorem pending_nil_of_guard {K : Type} [Inhabited K] (cbt : RowCbt K)
    (hg : cbt.ins_head.isEmpty = true ∨ cbt.ins_entry_cnt = 0) :
    descLive (cbt.ins_head.take (pendingCount cbt)) = [] := by
  rcases hg with hg | hg
  · rw [List.isEmpty_iff] at hg
    rw [hg]
    simp [descLive, ascLive]
  · have hp : pendingCount cbt = 0 := by
      cases hri : cbt.ret_insert <;> simp [pendingCount, hri, hg]
    rw [hp]
    simp [descLive, ascLive]

theorem afterIns_lemma {K : Type} [Inhabited K] (page : RowLeafPage K) (cbt : RowCbt K) :
    ((if cbt.ret_slot then slotStep page cbt.slot
      else match cbt.slot with | 0 => none | s + 1 => slotStep page s) = none →
      (if cbt.ret_slot then slotDown page cbt.slot
       else match cbt.slot with | 0 => [] | s + 1 => slotDown page s) = []) ∧
    (∀ cbt2 kv0,
      (if cbt.ret_slot then slotStep page cbt.slot
       else match cbt.slot with | 0 => none | s + 1 => slotStep page s) =
        some (cbt2, kv0) →
      (if cbt.ret_slot then slotDown page cbt.slot
       else match cbt.slot with | 0 => [] | s + 1 => slotDown page s) =
        kv0 :: remainingRow page cbt2 ∧
      rowFuel page cbt2 < rowFuel page cbt) := by
  by_cases hrs : cbt.ret_slot
  · simp only [hrs, if_true]
    constructor
    · intro h
      exact (slotStep_lemma page cbt.slot).1 h
    · intro cbt2 kv0 h
      obtain ⟨h1, h2⟩ := (slotStep_lemma page cbt.slot).2 cbt2 kv0 h
      refine ⟨h1, lt_of_lt_of_le h2 ?_⟩
      unfold rowFuel
      rw [if_pos hrs]
      omega
  · rw [Bool.not_eq_true] at hrs
    simp only [hrs, Bool.false_eq_true, if_false]
    cases hslot : cbt.slot with
    | zero =>
      constructor
      · intro _
        rfl
      · intro cbt2 kv0 h
        exact absurd h (by simp)
    | succ s =>
      constructor
      · intro h
        exact (slotStep_lemma page s).1 h
      · intro cbt2 kv0 h
        obtain ⟨h1, h2⟩ := (slotStep_lemma page s).2 cbt2 kv0 h
        refine ⟨h1, lt_of_lt_of_le h2 ?_⟩
        unfold rowFuel
        rw [hslot]
        simp only [hrs, Bool.false_eq_true, if_false]
        omega

theorem prevRowStep_lemma {K : Type} [Inhabited K] (page : RowLeafPage K) (cbt : RowCbt K) :
    (prevRowStep page cbt = none → remainingRow page cbt = []) ∧
    (∀ cbt2 kv0, prevRowStep page cbt = some (cbt2, kv0) →
      remainingRow page cbt = kv0 :: remainingRow page cbt2 ∧
      rowFuel page cbt2 < rowFuel page cbt) := by
  constructor
  · intro hnone
    simp only [prevRowStep] at hnone
    split at hnone
    · rename_i hguard
      have hdl := pending_nil_of_guard cbt hguard
      have hb := (afterIns_lemma page cbt).1 hnone
      unfold remainingRow
      rw [hdl, hb]
      rfl
    · rename_i hguard
      split at hnone
      · simp at hnone
      · rename_i hip
        have hdl := descLive_nil_of_filter _
          (insPhase_none_filter cbt.ins_head (pendingCount cbt) hip)
        have hb := (afterIns_lemma page cbt).1 hnone
        unfold remainingRow
        rw [hdl, hb]
        rfl
  · intro cbt2 kv0 hsome
    simp only [prevRowStep] at hsome
    split at hsome
    · rename_i hguard
      obtain ⟨h1, h2⟩ := (afterIns_lemma page cbt).2 cbt2 kv0 hsome
      have hdl := pending_nil_of_guard cbt hguard
      refine ⟨?_, h2⟩
      unfold remainingRow
      rw [hdl, h1]
      rfl
    · rename_i hguard
      split at hsome
      · rename_i c n hip
        cases hsome
        obtain ⟨hc1, hc2, hc3, hc4, hc5⟩ :=
          insPhase_some_filter cbt.ins_head (pendingCount cbt) c n hip
        have hcnt : cbt.ins_entry_cnt ≠ 0 := by
          by_contra hz
          exact hguard (Or.inr hz)
        constructor
        · unfold remainingRow
          have hdesc : descLive (cbt.ins_head.take (pendingCount cbt)) =
              (n.key, n.upd.data) :: descLive (cbt.ins_head.take (c - 1)) := by
            simp [descLive, ascLive, hc5]
          rw [hdesc]
          rfl
        · unfold rowFuel
          cases hri : cbt.ret_insert with
          | true =>
            have hpc : pendingCount cbt = cbt.ins_entry_cnt := by
              simp [pendingCount, hri]
            simp [hri]
            omega
          | false =>
            have hpc : pendingCount cbt = cbt.ins_entry_cnt - 1 := by
              simp [pendingCount, hri]
            simp [hri]
            omega
      · rename_i hip
        obtain ⟨h1, h2⟩ := (afterIns_lemma page cbt).2 cbt2 kv0 hsome
        have hdl := descLive_nil_of_filter _
          (insPhase_none_filter cbt.ins_head (pendingCount cbt) hip)
        refine ⟨?_, h2⟩
        unfold remainingRow
        rw [hdl, h1]
        rfl

theorem prevRowRunAux_eq {K : Type} [Inhabited K] (page : RowLeafPage K) :
    ∀ fuel cbt, rowFuel page cbt < fuel →
      prevRowRunAux page fuel cbt = remainingRow page cbt := by
  intro fuel
  induction fuel with
  | zero =>
    intro cbt h
    omega
  | succ f ih =>
    intro cbt h
    rw [prevRowRunAux]
    rcases hstep : prevRowStep page cbt with _ | ⟨cbt2, kv0⟩
    · exact ((prevRowStep_lemma page cbt).1 hstep).symm
    · obtain ⟨h1, h2⟩ := (prevRowStep_lemma page cbt).2 cbt2 kv0 hstep
      rw [h1]
      show kv0 :: prevRowRunAux page f cbt2 = kv0 :: remainingRow page cbt2
      rw [ih cbt2 (by omega)]

theorem prevRowRun_eq {K : Type} [Inhabited K] (page : RowLeafPage K) (cbt : RowCbt K) :
    prevRowRun page cbt = remainingRow page cbt :=
  prevRowRunAux_eq page (rowFuel page cbt + 1) cbt (by omega)

theorem remainingRow_init {K : Type} [Inhabited K] (page : RowLeafPage K) :
    remainingRow page (prevRowInit page) =
      descLive (page.insSlot.getD (page.rows.length - 1) []) ++
        slotDown page (page.rows.length - 1) := by
  unfold remainingRow prevRowInit
  simp [pendingCount, List.take_length]

theorem slotDown_reverse_merged {K : Type} [Inhabited K] (page : RowLeafPage K) :
    ∀ s, descLive (page.insSlot.getD s []) ++ slotDown page s =
      (mergedAscUpTo page s).reverse := by
  intro s
  induction s with
  | zero =>
    rw [mergedAscUpTo, List.reverse_append, List.reverse_append, slotEmit_reverse]
    show descLive (page.insSlot.getD 0 []) ++
      (slotEmit page 0 ++ descLive (preList page 0)) = _
    simp [descLive, preList, List.append_assoc]
  | succ s ih =>
    rw [mergedAscUpTo, List.reverse_append, List.reverse_append, slotEmit_reverse, ← ih]
    rw [slotDown_succ]
    have hpre : preList page (s + 1) = page.insSlot.getD s [] := by
      simp [preList]
    rw [hpre]
    simp [descLive, List.append_assoc]

theorem prevRowRun_init_merged {K : Type} [Inhabited K] (page : RowLeafPage K) :
    prevRowRun page (prevRowInit page) = (mergedAsc page).reverse := by
  rw [prevRowRun_eq, remainingRow_init, slotDown_reverse_merged]
  rfl

theorem treeDown_zero {K : Type} [Inhabited K] (pages : List (RowLeafPage K)) :
    treeDown pages 0 = (mergedAsc (pages.getD 0 default)).reverse := by
  simp only [treeDown]

theorem treeDown_succ {K : Type} [Inhabited K] (pages : List (RowLeafPage K)) (i : Nat) :
    treeDown pages (i + 1) =
      (mergedAsc (pages.getD (i + 1) default)).reverse ++ treeDown pages i := by
  simp only [treeDown]

theorem walkPagesBack_lemma {K : Type} [Inhabited K] (pages : List (RowLeafPage K)) :
    ∀ i, (walkPagesBack pages i = .notfound → treeDown pages i = []) ∧
      (∀ i2 cbt2 kv0, walkPagesBack pages i = .found i2 cbt2 kv0 →
        treeDown pages i = kv0 ::
          (remainingRow (pages.getD i2 default) cbt2 ++
            (match i2 with | 0 => [] | j + 1 => treeDown pages j))) := by
  intro i
  induction i with
  | zero =>
    constructor
    · intro h
      rw [walkPagesBack] at h
      split at h
      · simp at h
      · rename_i hstep
        rw [treeDown_zero, ← prevRowRun_init_merged, prevRowRun_eq]
        exact (prevRowStep_lemma _ _).1 hstep
    · intro i2 cbt2 kv0 h
      rw [walkPagesBack] at h
      split at h
      · cases h
        rw [treeDown_zero, ← prevRowRun_init_merged, prevRowRun_eq]
        obtain ⟨h1, _⟩ := (prevRowStep_lemma (pages.getD 0 default)
          (prevRowInit (pages.getD 0 default))).2 _ _ (by assumption)
        rw [h1]
        simp
      · simp at h
  | succ i ih =>
    constructor
    · intro h
      rw [walkPagesBack] at h
      split at h
      · simp at h
      · rename_i hstep
        rw [treeDown_succ, ← prevRowRun_init_merged, prevRowRun_eq]
        rw [(prevRowStep_lemma _ _).1 hstep, ih.1 h]
        rfl
    · intro i2 cbt2 kv0 h
      rw [walkPagesBack] at h
      split at h
      · cases h
        rw [treeDown_succ, ← prevRowRun_init_merged, prevRowRun_eq]
        obtain ⟨h1, _⟩ := (prevRowStep_lemma (pages.getD (i + 1) default)
          (prevRowInit (pages.getD (i + 1) default))).2 _ _ (by assumption)
        rw [h1]
        rfl
      · rename_i hstep
        rw [treeDown_succ, ← prevRowRun_init_merged, prevRowRun_eq]
        rw [(prevRowStep_lemma _ _).1 hstep, ih.2 i2 cbt2 kv0 h]
        rfl

theorem btcur_step_lemma {K : Type} [Inhabited K] (pages : List (RowLeafPage K))
    (i : Nat) (cbt : RowCbt K) :
    (__wt_btcur_prev pages (some (i, cbt)) = .notfound →
      remainingRow (pages.getD i default) cbt ++
        (match i with | 0 => [] | j + 1 => treeDown pages j) = []) ∧
    (∀ i2 cbt2 kv0, __wt_btcur_prev pages (some (i, cbt)) = .found i2 cbt2 kv0 →
      remainingRow (pages.getD i default) cbt ++
        (match i with | 0 => [] | j + 1 => treeDown pages j) =
      kv0 :: (remainingRow (pages.getD i2 default) cbt2 ++
        (match i2 with | 0 => [] | j + 1 => treeDown pages j))) := by
  constructor
  · intro h
    simp only [__wt_btcur_prev] at h
    split at h
    · simp at h
    · rename_i hstep
      rw [(prevRowStep_lemma _ _).1 hstep]
      split at h
      · rfl
      · rw [(walkPagesBack_lemma pages _).1 h]
        rfl
  · intro i2 cbt2 kv0 h
    simp only [__wt_btcur_prev] at h
    split at h
    · cases h
      obtain ⟨h1, _⟩ := (prevRowStep_lemma (pages.getD i default) cbt).2 _ _
        (by assumption)
      rw [h1]
      rfl
    · rename_i hstep
      rw [(prevRowStep_lemma _ _).1 hstep]
      split at h
      · simp at h
      · rw [(walkPagesBack_lemma pages _).2 i2 cbt2 kv0 h]
        rfl

theorem descLive_length_le {K : Type} (l : List (RowIns K)) :
    (descLive l).length ≤ l.length := by
  simp only [descLive, ascLive, List.length_reverse, List.length_map]
  exact List.length_filter_le _ l

theorem slotEmit_length_le {K : Type} [Inhabited K] (page : RowLeafPage K) (s : Nat) :
    (slotEmit page s).length ≤ 1 := by
  simp only [slotEmit]
  cases (page.rows.getD s default).upd with
  | none => simp
  | some u => by_cases hd : u.deleted <;> simp [hd]

theorem slotDown_length_le {K : Type} [Inhabited K] (page : RowLeafPage K) :
    ∀ s, (slotDown page s).length ≤ slotCost page s := by
  intro s
  induction s with
  | zero =>
    show (slotEmit page 0 ++ descLive (preList page 0)).length ≤
      2 + 2 * (preList page 0).length
    rw [List.length_append]
    have h1 := slotEmit_length_le page 0
    have h2 := descLive_length_le (preList page 0)
    omega
  | succ s ih =>
    rw [slotDown_succ]
    show _ ≤ 2 + 2 * (preList page (s + 1)).length + slotCost page s
    rw [List.length_append, List.length_append]
    have h1 := slotEmit_length_le page (s + 1)
    have h2 := descLive_length_le (preList page (s + 1))
    omega

theorem remainingRow_length_le {K : Type} [Inhabited K] (page : RowLeafPage K)
    (cbt : RowCbt K) : (remainingRow page cbt).length ≤ rowFuel page cbt := by
  unfold remainingRow rowFuel
  rw [List.length_append]
  have h1 : (descLive (cbt.ins_head.take (pendingCount cbt))).length ≤
      pendingCount cbt :=
    le_trans (descLive_length_le _) (List.length_take_le _ _)
  have h2 : pendingCount cbt ≤
      2 * cbt.ins_entry_cnt + (if cbt.ret_insert then 1 else 0) := by
    cases hri : cbt.ret_insert <;> simp [pendingCount, hri] <;> omega
  by_cases hrs : cbt.ret_slot
  · rw [if_pos hrs, if_pos hrs]
    have h3 := slotDown_length_le page cbt.slot
    omega
  · rw [if_neg hrs, if_neg hrs]
    cases hsl : cbt.slot with
    | zero => simp; omega
    | succ s =>
      have h3 := slotDown_length_le page s
      simp only [List.length_nil]
      omega

theorem treeDown_length_lt {K : Type} [Inhabited K] (pages : List (RowLeafPage K)) :
    ∀ i, (treeDown pages i).length < treeFuel pages i := by
  intro i
  have hpage : ∀ p : RowLeafPage K,
      ((mergedAsc p).reverse).length ≤ rowFuel p (prevRowInit p) := by
    intro p
    have he : (mergedAsc p).reverse = remainingRow p (prevRowInit p) :=
      (prevRowRun_init_merged p).symm.trans (prevRowRun_eq p (prevRowInit p))
    rw [he]
    exact remainingRow_length_le p (prevRowInit p)
  induction i with
  | zero =>
    rw [treeDown_zero]
    have := hpage (pages.getD 0 default)
    show _ < rowFuel (pages.getD 0 default) (prevRowInit (pages.getD 0 default)) + 1
    omega
  | succ i ih =>
    rw [treeDown_succ, List.length_append]
    have := hpage (pages.getD (i + 1) default)
    show _ < rowFuel (pages.getD (i + 1) default)
      (prevRowInit (pages.getD (i + 1) default)) + 1 + treeFuel pages i
    omega

theorem btcurRunAux_eq {K : Type} [Inhabited K] (pages : List (RowLeafPage K)) :
    ∀ fuel i cbt,
      (remainingRow (pages.getD i default) cbt ++
        (match i with | 0 => [] | j + 1 => treeDown pages j)).length < fuel →
      btcurRunAux pages fuel (some (i, cbt)) =
        remainingRow (pages.getD i default) cbt ++
          (match i with | 0 => [] | j + 1 => treeDown pages j) := by
  intro fuel
  induction fuel with
  | zero =>
    intro i cbt h
    omega
  | succ f ih =>
    intro i cbt h
    rw [btcurRunAux]
    rcases hcall : __wt_btcur_prev pages (some (i, cbt)) with ⟨i2, cbt2, kv0⟩ | _
    · have heq := (btcur_step_lemma pages i cbt).2 i2 cbt2 kv0 hcall
      rw [heq]
      show kv0 :: btcurRunAux pages f (some (i2, cbt2)) = kv0 :: _
      have hlen := congrArg List.length heq
      simp only [List.length_cons] at hlen
      rw [ih i2 cbt2 (by omega)]
    · exact ((btcur_step_lemma pages i cbt).1 hcall).symm

theorem treeDown_join {K : Type} [Inhabited K] (pages : List (RowLeafPage K)) :
    ∀ i, i < pages.length →
      treeDown pages i = (((pages.take (i + 1)).map mergedAsc).join).reverse := by
  intro i
  induction i with
  | zero =>
    intro hi
    rw [treeDown_zero, List.getD_eq_getElem pages default hi, List.take_succ,
        List.getElem?_eq_getElem hi]
    simp
  | succ i ih =>
    intro hi
    rw [treeDown_succ, List.getD_eq_getElem pages default hi,
        @List.take_succ _ pages (i + 1), List.getElem?_eq_getElem hi, ih (by omega)]
    simp
    rw [@List.take_succ _ (pages.map mergedAsc) (i + 1),
        List.getElem?_eq_getElem (by simpa using hi)]
    simp

/-- C2 counterexample: the claim quantifies over every tree state, including
column stores, but there the code fails the property through the stale
cbt->ins read of the column iterators.  On a fixed-length column page
(base record 1, two entries, a live insert update 7 for record 2) the
backward walk from the end crashes on its first call instead of producing
the merged visible record set [(2, [7]), (1, [10])]; a variable-length
column page with a live insert crashes the same way. -/
theorem C2_column_counterexample :
    (prevFixTraceAll ⟨1, 2, [10, 11], [⟨2, ⟨false, [7]⟩⟩]⟩ ⟨[], 0, 0, none⟩ ≠
      some (mergedFixDesc ⟨1, 2, [10, 11], [⟨2, ⟨false, [7]⟩⟩]⟩)) ∧
    (mergedFixDesc ⟨1, 2, [10, 11], [⟨2, ⟨false, [7]⟩⟩]⟩ = [(2, [7]), (1, [10])]) ∧
    (__prev_var ⟨1, [some ⟨.val [3], 1⟩], [[⟨1, ⟨false, [7]⟩⟩]]⟩ true
      ⟨0, 0, 0, 0, [], [], none⟩ = .nullDeref) :=
  ⟨by decide, by decide, by decide⟩

/-- C2, amended to row-store trees (the column-store instance fails on the
code: both column iterators read updates through the cursor's stale ins
field, so a column tree with any live insert crashes or misreports during
the walk — see the evaluation above): repeated __wt_btcur_prev calls from a
cleared cursor emit exactly the merged visible record set — on-disk slots
united with live insert-list entries, minus records whose most-recent
update is a deletion marker — of all leaves, in reverse of its ascending
order; when that merged set's keys are strictly increasing (the tree's
sortedness invariant) the emitted key sequence is strictly decreasing,
hence duplicate-free with no gaps relative to the merged set. -/
theorem C2_prev_iteration_merged {K : Type} [LinearOrder K] [Inhabited K]
    (pages : List (RowLeafPage K)) :
    btcurPrevRunAll pages = ((pages.map mergedAsc).join).reverse ∧
    (List.Chain' (· < ·) (((pages.map mergedAsc).join).map Prod.fst) →
      List.Chain' (· > ·) ((btcurPrevRunAll pages).map Prod.fst)) := by
  have hmain : btcurPrevRunAll pages = ((pages.map mergedAsc).join).reverse := by
    cases hlen : pages.length with
    | zero =>
      have hp : pages = [] := List.length_eq_zero.mp hlen
      subst hp
      rfl
    | succ n =>
      unfold btcurPrevRunAll
      rw [hlen]
      simp only [Nat.add_sub_cancel]
      rw [btcurRunAux]
      have hcallEq : __wt_btcur_prev pages none = walkPagesBack pages n := by
        simp only [__wt_btcur_prev, hlen]
      rw [hcallEq]
      cases hw : walkPagesBack pages n with
      | notfound =>
        have ht := (walkPagesBack_lemma pages n).1 hw
        have hjoin : treeDown pages n = ((pages.map mergedAsc).join).reverse := by
          rw [treeDown_join pages n (by omega), List.take_of_length_le (by omega)]
        rw [← hjoin, ht]
      | found i2 cbt2 kv0 =>
        have ht0 := (walkPagesBack_lemma pages n).2 i2 cbt2 kv0 hw
        have hjoin : treeDown pages n = ((pages.map mergedAsc).join).reverse := by
          rw [treeDown_join pages n (by omega), List.take_of_length_le (by omega)]
        rw [← hjoin, ht0]
        show kv0 :: btcurRunAux pages (treeFuel pages n) (some (i2, cbt2)) = kv0 :: _
        congr 1
        apply btcurRunAux_eq
        have hlt := treeDown_length_lt pages n
        have hl2 := congrArg List.length ht0
        simp only [List.length_cons] at hl2
        omega
  refine ⟨hmain, fun hsort => ?_⟩
  rw [hmain, List.map_reverse]
  exact List.chain'_reverse.mpr hsort

/-- Witness for C2 at the spec's concrete scenario: a row page with slots
for keys 2, 4, 6 and a live insert 5 between 4 and 6; the walk emits
6, 5, 4, 2, the reverse of the merged visible set, strictly decreasing. -/
theorem C2_prev_iteration_merged_witness :
    (btcurPrevRunAll (K := Nat)
      [⟨[⟨2, none, some [20]⟩, ⟨4, none, some [40]⟩, ⟨6, none, some [60]⟩],
        [], [[], [⟨5, ⟨false, [50]⟩⟩], []]⟩] =
      ((([⟨[⟨2, none, some [20]⟩, ⟨4, none, some [40]⟩, ⟨6, none, some [60]⟩],
        [], [[], [⟨5, ⟨false, [50]⟩⟩], []]⟩] : List (RowLeafPage Nat)).map
          mergedAsc).join).reverse) ∧
    List.Chain' (· > ·) ((btcurPrevRunAll (K := Nat)
      [⟨[⟨2, none, some [20]⟩, ⟨4, none, some [40]⟩, ⟨6, none, some [60]⟩],
        [], [[], [⟨5, ⟨false, [50]⟩⟩], []]⟩]).map Prod.fst) :=
  ⟨(C2_prev_iteration_merged
      [⟨[⟨2, none, some [20]⟩, ⟨4, none, some [40]⟩, ⟨6, none, some [60]⟩],
        [], [[], [⟨5, ⟨false, [50]⟩⟩], []]⟩]).1,
   (C2_prev_iteration_merged
      [⟨[⟨2, none, some [20]⟩, ⟨4, none, some [40]⟩, ⟨6, none, some [60]⟩],
        [], [[], [⟨5, ⟨false, [50]⟩⟩], []]⟩]).2 (by
      have he : ((([⟨[⟨2, none, some [20]⟩, ⟨4, none, some [40]⟩,
          ⟨6, none, some [60]⟩], [], [[], [⟨5, ⟨false, [50]⟩⟩], []]⟩] :
            List (RowLeafPage Nat)).map mergedAsc).join).map Prod.fst =
          [2, 4, 5, 6] := by rfl
      rw [he]
      simp [List.chain'_cons])⟩
